import Mathlib

/-!
Verification of the code indexing and retrieval pipeline of the
claude-helper-agent repository: the chunker (`src/lib/chunker.ts`), the
embedding client and vector store manager (`src/lib/embeddings.ts`), the
indexing handler (`src/handlers/index.ts`) and the query handler
(`src/handlers/query.ts`), shallowly embedded as executable Lean
definitions.  Strings are modelled by Lean `String`, JavaScript numbers
by `Nat` (all quantities involved are non-negative integers), external
effects (AI embedding service, Vectorize, clock, id generation) by
explicit oracles threaded through a system state.
-/

namespace ClaudeHelper

/-! ## JavaScript string primitives -/

/-- JavaScript `\s` (ASCII part, sufficient for the sources at hand). -/
def jsWs (c : Char) : Bool :=
  c = ' ' || c = '\t' || c = '\n' || c = '\r' || c = '\x0b' || c = '\x0c'

/-- JavaScript `\w`: `[A-Za-z0-9_]`. -/
def wordChar (c : Char) : Bool := c.isAlphanum || c = '_'

/-- `String.prototype.split` with a single-character separator. -/
def splitCharList (sep : Char) : List Char → List (List Char)
  | [] => [[]]
  | c :: rest =>
    match splitCharList sep rest with
    | [] => [[]]
    | l :: ls => if c = sep then [] :: l :: ls else (c :: l) :: ls

def splitChar (sep : Char) (s : String) : List String :=
  (splitCharList sep s.data).map String.mk

/-- `content.split('\n')`. -/
def splitLines (s : String) : List String := splitChar '\n' s

/-- `lines.join('\n')`. -/
def joinLines : List String → String
  | [] => ""
  | [a] => a
  | a :: b :: rest => a ++ "\n" ++ joinLines (b :: rest)

/-- `String.prototype.trim` (ASCII whitespace). -/
def jsTrim (s : String) : String :=
  String.mk (((s.data.dropWhile jsWs).reverse.dropWhile jsWs).reverse)

/-- Does `needle` occur as a contiguous sublist of the haystack? -/
def occursIn (needle : List Char) : List Char → Bool
  | [] => needle.isEmpty
  | c :: rest => needle.isPrefixOf (c :: rest) || occursIn needle rest

/-- `haystack.includes(needle)`. -/
def jsIncludes (haystack needle : String) : Bool :=
  occursIn needle.data haystack.data

/-- `String.prototype.toLowerCase` (ASCII). -/
def jsToLower (s : String) : String := String.mk (s.data.map Char.toLower)

/-- The 1-based inclusive slice `[s, e]` of a list of lines. -/
def sliceLines (lines : List String) (s e : Nat) : List String :=
  (lines.take e).drop (s - 1)

/-! ## Regular-expression signatures

Each boundary pattern of `chunker.ts` is an anchored regular expression
used only through `RegExp.test`; we embed each one as a matcher on
character lists returning every possible remainder, so `rtest` is true
exactly when the regular expression matches a prefix of the string. -/

def Matcher : Type := List Char → List (List Char)

def mchar (f : Char → Bool) : Matcher := fun cs =>
  match cs with
  | [] => []
  | c :: rest => if f c then [rest] else []

def mlit (s : String) : Matcher := fun cs =>
  if s.data.isPrefixOf cs then [cs.drop s.data.length] else []

def mseq (p q : Matcher) : Matcher := fun cs => (p cs).flatMap q

def mopt (p : Matcher) : Matcher := fun cs => cs :: p cs

/-- All remainders after consuming zero or more characters satisfying `f`. -/
def mstarList (f : Char → Bool) : List Char → List (List Char)
  | [] => [[]]
  | c :: rest => (c :: rest) :: (if f c then mstarList f rest else [])

def mstar (f : Char → Bool) : Matcher := fun cs => mstarList f cs

def mplus (f : Char → Bool) : Matcher := mseq (mchar f) (mstar f)

/-- `\s+` -/
def ws1 : Matcher := mplus jsWs

/-- `\s*` -/
def wsStar : Matcher := mstar jsWs

/-- `\w+` -/
def word1 : Matcher := mplus wordChar

def rtest (p : Matcher) (s : String) : Bool := !(p s.data).isEmpty

/-- `/^(export\s+)?(async\s+)?function\s+\w+/` -/
def patFnJs : String → Bool :=
  rtest (mseq (mopt (mseq (mlit "export") ws1))
        (mseq (mopt (mseq (mlit "async") ws1))
        (mseq (mlit "function") (mseq ws1 word1))))

/-- `/^(export\s+)?class\s+\w+/` -/
def patClassJs : String → Bool :=
  rtest (mseq (mopt (mseq (mlit "export") ws1))
        (mseq (mlit "class") (mseq ws1 word1)))

/-- `/^(export\s+)?const\s+\w+\s*=\s*(async\s+)?\(/` -/
def patConstArrow : String → Bool :=
  rtest (mseq (mopt (mseq (mlit "export") ws1))
        (mseq (mlit "const") (mseq ws1 (mseq word1 (mseq wsStar (mseq (mlit "=")
        (mseq wsStar (mseq (mopt (mseq (mlit "async") ws1)) (mlit "(")))))))))

/-- `/^(async\s+)?def\s+\w+/` -/
def patPyDef : String → Bool :=
  rtest (mseq (mopt (mseq (mlit "async") ws1)) (mseq (mlit "def") (mseq ws1 word1)))

/-- `/^class\s+\w+/` -/
def patPyClass : String → Bool :=
  rtest (mseq (mlit "class") (mseq ws1 word1))

/-- `/^func\s+(\(\w+\s+\*?\w+\)\s+)?\w+/` -/
def patGoFunc : String → Bool :=
  rtest (mseq (mlit "func") (mseq ws1 (mseq (mopt (mseq (mlit "(") (mseq word1 (mseq ws1
        (mseq (mopt (mlit "*")) (mseq word1 (mseq (mlit ")") ws1))))))) word1)))

/-- `/^type\s+\w+\s+struct/` -/
def patGoStruct : String → Bool :=
  rtest (mseq (mlit "type") (mseq ws1 (mseq word1 (mseq ws1 (mlit "struct")))))

/-- `/^(pub\s+)?(async\s+)?fn\s+\w+/` -/
def patRsFn : String → Bool :=
  rtest (mseq (mopt (mseq (mlit "pub") ws1))
        (mseq (mopt (mseq (mlit "async") ws1)) (mseq (mlit "fn") (mseq ws1 word1))))

/-- `/^(pub\s+)?struct\s+\w+/` -/
def patRsStruct : String → Bool :=
  rtest (mseq (mopt (mseq (mlit "pub") ws1)) (mseq (mlit "struct") (mseq ws1 word1)))

/-- `/^impl\s+/` -/
def patRsImpl : String → Bool :=
  rtest (mseq (mlit "impl") ws1)

/-- The per-language pattern table of `detectCodeBoundaries` (chunker.ts:88-96). -/
def langPatterns : String → List (String → Bool)
  | "ts" => [patFnJs, patClassJs, patConstArrow]
  | "tsx" => [patFnJs, patClassJs, patConstArrow]
  | "js" => [patFnJs, patClassJs, patConstArrow]
  | "jsx" => [patFnJs, patClassJs]
  | "py" => [patPyDef, patPyClass]
  | "go" => [patGoFunc, patGoStruct]
  | "rs" => [patRsFn, patRsStruct, patRsImpl]
  | _ => []

/-- `/^#{1,3}\s+/` (chunker.ts:126). -/
def isMdHeader : String → Bool :=
  rtest (mseq (mchar (· = '#')) (mseq (mopt (mchar (· = '#')))
        (mseq (mopt (mchar (· = '#'))) ws1)))

/-! ## utils.ts -/

def getFileExtension (path : String) : String :=
  let parts := splitChar '.' path
  if 1 < parts.length then jsToLower (parts.getLastD "") else ""

inductive ChunkType
  | code | markdown | config | text
deriving DecidableEq, Repr

def codeExtensions : List String :=
  ["ts", "tsx", "js", "jsx", "py", "go", "rs", "java", "c", "cpp", "h", "hpp", "sql", "sh", "bash"]

def markdownExtensions : List String := ["md", "mdx"]

def configExtensions : List String :=
  ["json", "yaml", "yml", "toml", "xml", "env", "ini", "cfg"]

def getFileType (path : String) : ChunkType :=
  let ext := getFileExtension path
  if codeExtensions.contains ext then .code
  else if markdownExtensions.contains ext then .markdown
  else if configExtensions.contains ext then .config
  else .text

def indexableExtensions : List String :=
  ["ts", "tsx", "js", "jsx", "py", "go", "rs", "java", "c", "cpp", "h", "hpp",
   "sql", "sh", "bash", "md", "mdx", "json", "yaml", "yml", "toml", "txt"]

def skipPatterns : List String :=
  ["node_modules", ".git", "dist", "build", ".next", "__pycache__",
   "venv", ".venv", "target", ".idea", ".vscode", "coverage",
   ".wrangler", ".turbo", ".cache"]

def shouldIndexFile (path : String) : Bool :=
  if skipPatterns.any (fun p => jsIncludes path p) then false
  else if jsIncludes path "package-lock.json" || jsIncludes path "yarn.lock"
       || jsIncludes path "pnpm-lock.yaml" then false
  else indexableExtensions.contains (getFileExtension path)

def extractProjectName (path : String) : String :=
  let trimmed := if path.data.getLast? = some '/' then String.mk path.data.dropLast else path
  let parts := splitChar '/' trimmed
  if parts.getLastD "" = "" then "unknown" else parts.getLastD ""

/-! ## chunker.ts -/

def MAX_CHUNK_TOKENS : Nat := 512
def OVERLAP_LINES : Nat := 3
def APPROX_CHARS_PER_TOKEN : Nat := 4
def MAX_CHUNK_CHARS : Nat := MAX_CHUNK_TOKENS * APPROX_CHARS_PER_TOKEN

structure ChunkOptions where
  fileId : String
  projectId : String
  filePath : String
deriving DecidableEq, Repr

structure ChunkRec where
  file_id : String
  project_id : String
  content : String
  start_line : Nat
  end_line : Nat
  chunk_type : ChunkType
deriving DecidableEq, Repr

/-- Loop of `chunkByLines` (chunker.ts:226-259); `i` is the index of the
next line, `cur` the accumulated window, `startL` its 0-based start. -/
def chunkByLinesGo (opts : ChunkOptions) (ct : ChunkType) :
    List String → Nat → List String → Nat → List ChunkRec
  | [], _, _, _ => []
  | l :: rest, i, cur, startL =>
    let cur' := cur ++ [l]
    if MAX_CHUNK_CHARS ≤ (joinLines cur').length ∨ rest = [] then
      let emitted :=
        if 0 < (jsTrim (joinLines cur')).length then
          [{ file_id := opts.fileId, project_id := opts.projectId,
             content := joinLines cur', start_line := startL + 1,
             end_line := i + 1, chunk_type := ct }]
        else []
      let newCur := cur'.drop (cur'.length - OVERLAP_LINES)
      emitted ++ chunkByLinesGo opts ct rest (i + 1) newCur (i + 1 - newCur.length)
    else
      chunkByLinesGo opts ct rest (i + 1) cur' startL

def chunkByLines (lines : List String) (opts : ChunkOptions) (ct : ChunkType) :
    List ChunkRec :=
  chunkByLinesGo opts ct lines 0 [] 0

/-- Loop of `splitLargeChunk` (chunker.ts:264-306); `startLine` is the
0-based offset of the span within the file, `curStart` the 0-based start
of the current window in the file. -/
def splitLargeChunkGo (opts : ChunkOptions) (startLine : Nat) :
    List String → Nat → List String → Nat → List ChunkRec
  | [], i, cur, curStart =>
    if 0 < cur.length ∧ 0 < (jsTrim (joinLines cur)).length then
      [{ file_id := opts.fileId, project_id := opts.projectId,
         content := joinLines cur, start_line := curStart + 1,
         end_line := startLine + i, chunk_type := .code }]
    else []
  | l :: rest, i, cur, curStart =>
    let cur' := cur ++ [l]
    if MAX_CHUNK_CHARS ≤ (joinLines cur').length then
      let newCur := cur'.drop (cur'.length - OVERLAP_LINES)
      { file_id := opts.fileId, project_id := opts.projectId,
        content := joinLines cur', start_line := curStart + 1,
        end_line := startLine + i + 1, chunk_type := .code }
        :: splitLargeChunkGo opts startLine rest (i + 1) newCur
             (startLine + i + 1 - newCur.length)
    else
      splitLargeChunkGo opts startLine rest (i + 1) cur' curStart

def splitLargeChunk (lines : List String) (startLine : Nat) (opts : ChunkOptions) :
    List ChunkRec :=
  splitLargeChunkGo opts startLine lines 0 [] startLine

/-- Loop of `detectCodeBoundaries` (chunker.ts:100-112). -/
def detectCodeBoundariesGo (pats : List (String → Bool)) :
    List String → Nat → Nat → List Nat
  | [], _, _ => []
  | l :: rest, i, lastB =>
    if pats.any (fun p => p (jsTrim l)) then
      if 5 < i - lastB then i :: detectCodeBoundariesGo pats rest (i + 1) i
      else detectCodeBoundariesGo pats rest (i + 1) lastB
    else detectCodeBoundariesGo pats rest (i + 1) lastB

/-- `detectCodeBoundaries` (chunker.ts:83-115): seeded with boundary 0;
the extension is `filePath.split('.').pop()?.toLowerCase()`. -/
def detectCodeBoundaries (lines : List String) (filePath : String) : List Nat :=
  let ext := jsToLower ((splitChar '.' filePath).getLastD "")
  0 :: detectCodeBoundariesGo (langPatterns ext) lines 0 0

/-- Boundary-to-boundary spans of `chunkCode` (chunker.ts:51-71). -/
def chunkCodeSpans (opts : ChunkOptions) (lines : List String) :
    List Nat → List ChunkRec
  | [] => []
  | b :: rest =>
    let e := match rest with
      | [] => lines.length
      | b2 :: _ => b2
    let chunkLines := (lines.take e).drop b
    let here :=
      if MAX_CHUNK_CHARS < (joinLines chunkLines).length then
        splitLargeChunk chunkLines b opts
      else if 0 < (jsTrim (joinLines chunkLines)).length then
        [{ file_id := opts.fileId, project_id := opts.projectId,
           content := joinLines chunkLines, start_line := b + 1,
           end_line := e, chunk_type := .code }]
      else []
    here ++ chunkCodeSpans opts lines rest

def chunkCodeLines (lines : List String) (opts : ChunkOptions) : List ChunkRec :=
  let boundaries := detectCodeBoundaries lines opts.filePath
  if 0 < boundaries.length then chunkCodeSpans opts lines boundaries
  else chunkByLines lines opts .code

def chunkCode (content : String) (opts : ChunkOptions) : List ChunkRec :=
  chunkCodeLines (splitLines content) opts

/-- Loop of `chunkMarkdown` (chunker.ts:131-171) plus the final flush. -/
def chunkMarkdownGo (opts : ChunkOptions) :
    List String → Nat → Nat → List String → List ChunkRec
  | [], i, curStart, curLines =>
    if 0 < curLines.length ∧ 0 < (jsTrim (joinLines curLines)).length then
      [{ file_id := opts.fileId, project_id := opts.projectId,
         content := joinLines curLines, start_line := curStart + 1,
         end_line := i, chunk_type := .markdown }]
    else []
  | l :: rest, i, curStart, curLines =>
    if isMdHeader l ∧ 0 < curLines.length then
      let emitted :=
        if 0 < (jsTrim (joinLines curLines)).length then
          [{ file_id := opts.fileId, project_id := opts.projectId,
             content := joinLines curLines, start_line := curStart + 1,
             end_line := i, chunk_type := .markdown }]
        else []
      emitted ++ chunkMarkdownGo opts rest (i + 1) i [l]
    else
      let cur' := curLines ++ [l]
      if MAX_CHUNK_CHARS < (joinLines cur').length then
        let sp := cur'.length / 2
        { file_id := opts.fileId, project_id := opts.projectId,
          content := joinLines (cur'.take sp), start_line := curStart + 1,
          end_line := curStart + sp, chunk_type := .markdown }
          :: chunkMarkdownGo opts rest (i + 1) (curStart + sp) (cur'.drop sp)
      else
        chunkMarkdownGo opts rest (i + 1) curStart cur'

def chunkMarkdown (content : String) (opts : ChunkOptions) : List ChunkRec :=
  chunkMarkdownGo opts (splitLines content) 0 0 []

def chunkConfig (content : String) (opts : ChunkOptions) : List ChunkRec :=
  if content.length ≤ MAX_CHUNK_CHARS then
    [{ file_id := opts.fileId, project_id := opts.projectId,
       content := content, start_line := 1,
       end_line := (splitLines content).length, chunk_type := .config }]
  else chunkByLines (splitLines content) opts .config

def chunkText (content : String) (opts : ChunkOptions) : List ChunkRec :=
  chunkByLines (splitLines content) opts .text

/-- `chunkFile` (chunker.ts:18-34). -/
def chunkFile (content : String) (opts : ChunkOptions) : List ChunkRec :=
  match getFileType opts.filePath with
  | .markdown => chunkMarkdown content opts
  | .code => chunkCode content opts
  | .config => chunkConfig content opts
  | .text => chunkText content opts

/-! ## System state and effect oracles

The relational store, vector index, key-value cache and external services
are modelled by an explicit state record plus an oracle fixing the
behaviour of the non-deterministic effects (UUID generation, hashing, the
clock, and success or failure of each AI / Vectorize call, numbered in
call order). -/

structure VectorMetadata where
  chunk_id : String
  project_id : String
  file_path : String
  file_type : ChunkType
  start_line : Nat
  end_line : Nat
deriving DecidableEq, Repr

structure EmbeddingResult where
  id : String
  values : List Int
  metadata : VectorMetadata
deriving DecidableEq, Repr

structure ProjectRow where
  id : String
  name : String
  path : String
  status : String
  file_count : Nat
  last_indexed_at : Option Nat
deriving DecidableEq, Repr

structure FileRow where
  id : String
  project_id : String
  relative_path : String
  content_hash : String
  chunk_count : Nat
  indexed_at : Nat
deriving DecidableEq, Repr

structure ChunkRow where
  id : String
  file_id : String
  project_id : String
  content : String
  start_line : Nat
  end_line : Nat
  chunk_type : ChunkType
deriving DecidableEq, Repr

structure MessageRow where
  id : String
  conversation_id : String
  role : String
  content : String
  created_at : Nat
deriving DecidableEq, Repr

structure Db where
  projects : List ProjectRow
  files : List FileRow
  chunks : List ChunkRow
deriving DecidableEq, Repr

structure Sys where
  db : Db
  vectors : List EmbeddingResult
  kvEmbedCount : Nat
  idCalls : Nat
  genEmbCalls : Nat
  aiCalls : Nat
  upsertCalls : Nat
  deleteCalls : Nat
deriving DecidableEq, Repr

structure Oracle where
  genId : Nat → String
  hashF : String → String
  nowMs : Nat
  aiOk : Nat → Bool
  aiEmbed : List String → List (List Int)
  upsertOk : Nat → Bool
  deleteOk : Nat → Bool

def DAILY_EMBEDDING_LIMIT : Nat := 7000
def BATCH_SIZE : Nat := 100
def EMBEDDING_BATCH_SIZE : Nat := 50

/-- `generateEmbeddings` (embeddings.ts:16-40).  Returns the error or the
vectors, together with the state after the call; the KV counter is only
written after a successful AI call. -/
def generateEmbeddings (ora : Oracle) (s : Sys) (texts : List String) :
    Except String (List (List Int)) × Sys :=
  let s := { s with genEmbCalls := s.genEmbCalls + 1 }
  if texts.length = 0 then (.ok [], s)
  else
    let currentCount := s.kvEmbedCount
    if DAILY_EMBEDDING_LIMIT < currentCount + texts.length then
      (.error "Daily embedding limit reached", s)
    else
      let callIdx := s.aiCalls
      let s := { s with aiCalls := s.aiCalls + 1 }
      if ora.aiOk callIdx then
        (.ok (ora.aiEmbed texts), { s with kvEmbedCount := currentCount + texts.length })
      else (.error "AI error", s)

/-- Successive slices `l.slice(i, i + n)` of the batching loops, with
structural fuel (the list's length always suffices). -/
def chunksOfGo (n : Nat) : Nat → List α → List (List α)
  | 0, _ => []
  | fuel + 1, l =>
    if l.length = 0 ∨ n = 0 then [] else l.take n :: chunksOfGo n fuel (l.drop n)

/-- Successive slices `l.slice(i, i + n)` of the batching loops. -/
def chunksOf (n : Nat) (l : List α) : List (List α) := chunksOfGo n l.length l

/-- The vector index after one successful `upsert`: records are replaced
by identifier. -/
def applyUpsert (vectors batch : List EmbeddingResult) : List EmbeddingResult :=
  vectors.filter (fun v => (batch.find? (fun b => b.id = v.id)).isNone) ++ batch

/-- Loop of `upsertVectors` (embeddings.ts:64-80). -/
def upsertVectorsGo (ora : Oracle) :
    List (List EmbeddingResult) → Nat → Nat → Sys → (Nat × Nat) × Sys
  | [], inserted, errors, s => ((inserted, errors), s)
  | batch :: rest, inserted, errors, s =>
    let callIdx := s.upsertCalls
    let s := { s with upsertCalls := s.upsertCalls + 1 }
    if ora.upsertOk callIdx then
      upsertVectorsGo ora rest (inserted + batch.length) errors
        { s with vectors := applyUpsert s.vectors batch }
    else
      upsertVectorsGo ora rest inserted (errors + batch.length) s

/-- `upsertVectors` (embeddings.ts:56-83). -/
def upsertVectors (ora : Oracle) (s : Sys) (vectors : List EmbeddingResult) :
    (Nat × Nat) × Sys :=
  upsertVectorsGo ora (chunksOf BATCH_SIZE vectors) 0 0 s

/-- Batched `deleteByIds` loop of `deleteProjectVectors`
(embeddings.ts:132-140); a failing batch is skipped. -/
def deleteVectorBatches (ora : Oracle) : List (List String) → Sys → Sys
  | [], s => s
  | batch :: rest, s =>
    let callIdx := s.deleteCalls
    let s := { s with deleteCalls := s.deleteCalls + 1 }
    let s := if ora.deleteOk callIdx then
        { s with vectors := s.vectors.filter (fun v => !batch.contains v.id) }
      else s
    deleteVectorBatches ora rest s

/-- `deleteProjectVectors` (embeddings.ts:119-141). -/
def deleteProjectVectors (ora : Oracle) (s : Sys) (projectId : String) : Sys :=
  let chunkIds := (s.db.chunks.filter (fun c => c.project_id = projectId)).map (fun c => c.id)
  if chunkIds.length = 0 then s
  else deleteVectorBatches ora (chunksOf 100 chunkIds) s

/-- `assignChunkIds` (chunker.ts:311-316), consuming fresh UUIDs in order. -/
def assignChunkIds (ora : Oracle) : List ChunkRec → Sys → List ChunkRow × Sys
  | [], s => ([], s)
  | c :: rest, s =>
    let cid := ora.genId s.idCalls
    let s := { s with idCalls := s.idCalls + 1 }
    let (rows, s') := assignChunkIds ora rest s
    ({ id := cid, file_id := c.file_id, project_id := c.project_id,
       content := c.content, start_line := c.start_line, end_line := c.end_line,
       chunk_type := c.chunk_type } :: rows, s')

/-! ## handlers/index.ts -/

structure IndexReq where
  project_path : String
  project_name : Option String
  force : Bool
  append : Bool
  files : List (String × String)
deriving DecidableEq, Repr

inductive IndexResp
  | badRequest (msg : String)
  | recentlyIndexed (project_id : String) (last_indexed_at : Nat)
  | noNewFiles (project_id : String)
  | completed (project_id : String) (status : String)
      (total_files processed_files total_chunks : Nat)
      (vectors_inserted vectors_errors : Nat)
deriving DecidableEq, Repr

def updateProjectRows (db : Db) (pid : String) (f : ProjectRow → ProjectRow) : Db :=
  { db with projects := db.projects.map (fun p => if p.id = pid then f p else p) }

/-- The recently-indexed test of index.ts:66-67:
`lastIndexed && Date.now() / 1000 - lastIndexed < 3600`. -/
def isRecent (nowMs : Nat) (last : Option Nat) : Bool :=
  match last with
  | none => false
  | some t => t != 0 && nowMs / 1000 - t < 3600

/-- Eligibility filter followed by the append-mode path dedup
(index.ts:102-108). -/
def selectFiles (files : List (String × String)) (appendMode : Bool)
    (existingPaths : List String) : List (String × String) :=
  let eligible := files.filter (fun f => shouldIndexFile f.1)
  if appendMode ∧ 0 < existingPaths.length then
    eligible.filter (fun f => !existingPaths.contains f.1)
  else eligible

/-- Per-file loop of `handleIndex` (index.ts:144-166): fresh file id,
content digest, chunking, chunk ids. -/
def processFiles (ora : Oracle) (projectId : String) :
    List (String × String) → Sys → (List FileRow × List ChunkRow) × Sys
  | [], s => (([], []), s)
  | (path, content) :: rest, s =>
    let fileId := ora.genId s.idCalls
    let s := { s with idCalls := s.idCalls + 1 }
    let contentHash := ora.hashF content
    let (chunks, s) := assignChunkIds ora
      (chunkFile content { fileId := fileId, projectId := projectId, filePath := path }) s
    let fileRec : FileRow :=
      { id := fileId, project_id := projectId, relative_path := path,
        content_hash := contentHash, chunk_count := chunks.length,
        indexed_at := ora.nowMs / 1000 }
    let (rest', s') := processFiles ora projectId rest s
    ((fileRec :: rest'.1, chunks ++ rest'.2), s')

/-- Vector records built from one successfully embedded batch
(index.ts:212-228). -/
def buildVectorRecords (pid : String) (fileRecords : List FileRow)
    (embs : List (List Int)) : List ChunkRow → Nat → List EmbeddingResult
  | [], _ => []
  | c :: rest, j =>
    let fr := fileRecords.find? (fun f => f.id = c.file_id)
    let path := (fr.map (fun f => f.relative_path)).getD ""
    { id := c.id, values := embs.getD j [],
      metadata := { chunk_id := c.id, project_id := pid, file_path := path,
                    file_type := getFileType path, start_line := c.start_line,
                    end_line := c.end_line } }
      :: buildVectorRecords pid fileRecords embs rest (j + 1)

/-- Embedding loop of `handleIndex` (index.ts:205-233): a batch whose
`generateEmbeddings` call fails is skipped and processing continues. -/
def embedStage (ora : Oracle) (pid : String) (fileRecords : List FileRow) :
    List (List ChunkRow) → Sys → List EmbeddingResult × Sys
  | [], s => ([], s)
  | batch :: rest, s =>
    let texts := batch.map (fun c => c.content)
    let r := generateEmbeddings ora s texts
    match r.1 with
    | .ok embs =>
      let recs := buildVectorRecords pid fileRecords embs batch 0
      let rest' := embedStage ora pid fileRecords rest r.2
      (recs ++ rest'.1, rest'.2)
    | .error _ => embedStage ora pid fileRecords rest r.2

/-- Tail of `handleIndex` after the per-mode branch (index.ts:102-274):
file selection, chunking, persistence, embedding, upsert and the final
project update. -/
def handleIndexBody (ora : Oracle) (req : IndexReq) (s : Sys) (projectId : String)
    (existingPaths : List String) : IndexResp × Sys :=
  let appendMode := req.append
  let filesToProcess := selectFiles req.files appendMode existingPaths
  if filesToProcess.length = 0 then
    let s := { s with db :=
      updateProjectRows s.db projectId (fun p => { p with status := "ready" }) }
    (.noNewFiles projectId, s)
  else
    let pr := processFiles ora projectId filesToProcess s
    let fileRecords := pr.1.1
    let allChunks := pr.1.2
    let s := { pr.2 with db := { pr.2.db with
      files := pr.2.db.files ++ fileRecords,
      chunks := pr.2.db.chunks ++ allChunks } }
    let es := embedStage ora projectId fileRecords (chunksOf EMBEDDING_BATCH_SIZE allChunks) s
    let up := upsertVectors ora es.2 es.1
    let inserted := up.1.1
    let errors := up.1.2
    let s := { up.2 with db := updateProjectRows up.2.db projectId (fun p =>
      { p with status := if errors = 0 then "ready" else "error",
               file_count := if appendMode then p.file_count + fileRecords.length
                             else fileRecords.length,
               last_indexed_at := some (ora.nowMs / 1000) }) }
    (.completed projectId (if errors = 0 then "complete" else "error")
       filesToProcess.length fileRecords.length allChunks.length inserted errors, s)

/-- `handleIndex` (index.ts:20-283). -/
def handleIndex (ora : Oracle) (req : IndexReq) (s : Sys) : IndexResp × Sys :=
  if req.project_path = "" then (.badRequest "project_path is required", s)
  else if req.files.length = 0 then
    (.badRequest "files array is required with path and content for each file", s)
  else
    let projectName := match req.project_name with
      | some n => if n = "" then extractProjectName req.project_path else n
      | none => extractProjectName req.project_path
    match s.db.projects.find? (fun p => p.path = req.project_path) with
    | some project =>
      let projectId := project.id
      if req.append then
        let existingPaths := (s.db.files.filter
          (fun f => f.project_id = projectId)).map (fun f => f.relative_path)
        let s := { s with db :=
          updateProjectRows s.db projectId (fun p => { p with status := "indexing" }) }
        handleIndexBody ora req s projectId existingPaths
      else if !req.force ∧ isRecent ora.nowMs project.last_indexed_at then
        (.recentlyIndexed projectId (project.last_indexed_at.getD 0), s)
      else
        let s := deleteProjectVectors ora s projectId
        let s := { s with db :=
          { updateProjectRows s.db projectId
              (fun p => { p with status := "indexing", file_count := 0 }) with
            chunks := s.db.chunks.filter (fun c => ¬ c.project_id = projectId),
            files := s.db.files.filter (fun f => ¬ f.project_id = projectId) } }
        handleIndexBody ora req s projectId []
    | none =>
      let projectId := ora.genId s.idCalls
      let s := { s with idCalls := s.idCalls + 1 }
      let s := { s with db := { s.db with projects := s.db.projects ++
        [{ id := projectId, name := projectName, path := req.project_path,
           status := "indexing", file_count := 0, last_indexed_at := none }] } }
      handleIndexBody ora req s projectId []

/-! ## handlers/query.ts and the retrieval join -/

/-- The conversation-history query of `handleQuery` (query.ts:81-87):
`SELECT role, content FROM messages WHERE conversation_id = ?
ORDER BY created_at ASC LIMIT 10`. -/
def loadConversationHistory (messages : List MessageRow) (conversationId : String) :
    List MessageRow :=
  ((messages.filter (fun m => m.conversation_id = conversationId)).insertionSort
    (fun a b => a.created_at ≤ b.created_at)).take 10

/-- Modelled from the spec (§4.6): "load the last 10 messages of that
conversation (ascending by creation time)" — the 10 most recent messages,
presented in ascending creation-time order. -/
def specLastTenMessages (messages : List MessageRow) (conversationId : String) :
    List MessageRow :=
  let sorted := (messages.filter (fun m => m.conversation_id = conversationId)).insertionSort
    (fun a b => a.created_at ≤ b.created_at)
  sorted.drop (sorted.length - 10)

/-- The chunk ordering of `readFileTool`'s query (`ORDER BY c.start_line`,
embeddings.ts:243-249). -/
def sortByStart (cs : List ChunkRec) : List ChunkRec :=
  cs.insertionSort (fun a b => a.start_line ≤ b.start_line)

/-- The reconstruction `readFileTool` performs (embeddings.ts:255):
chunk contents ordered by start line, joined with a newline. -/
def readFileJoin (cs : List ChunkRec) : String :=
  joinLines ((sortByStart cs).map (fun c => c.content))

/-- Character-level join with a separator, used to relate `splitCharList`
and `joinLines`. -/
def joinCharSep (sep : Char) : List (List Char) → List Char
  | [] => []
  | [a] => a
  | a :: b :: rest => a ++ sep :: joinCharSep sep (b :: rest)

/-- Per-chunk invariant: the chunk's content is exactly the 1-based
inclusive slice `[start_line, end_line]` of the file's lines rejoined
with newlines (an empty slice joining to `""`), the line numbers are in
range, and a chunk with non-empty content has `start_line ≤ end_line`. -/
def ChunkSpan (lines : List String) (c : ChunkRec) : Prop :=
  c.content = joinLines (sliceLines lines c.start_line c.end_line)
  ∧ 1 ≤ c.start_line ∧ c.end_line ≤ lines.length
  ∧ (c.content ≠ "" → c.start_line ≤ c.end_line)

/-- Contiguous exact cover: the chunk list starts at line `s`, each chunk
is non-empty and begins right after its predecessor ends, and the last
chunk ends at line `n`. -/
def contiguousFromB : Nat → List ChunkRec → Nat → Bool
  | s, [], n => s == n + 1
  | s, c :: cs, n =>
    (c.start_line == s) && Nat.ble s c.end_line && contiguousFromB (c.end_line + 1) cs n

/-- Expected inserted count of the upsert loop: sizes of the batches whose
(sequentially numbered) upsert call succeeds. -/
def expectedInserted (ok : Nat → Bool) : List (List EmbeddingResult) → Nat → Nat
  | [], _ => 0
  | b :: bs, k => (if ok k then b.length else 0) + expectedInserted ok bs (k + 1)

/-- Expected error count of the upsert loop: sizes of the batches whose
upsert call fails. -/
def expectedErrors (ok : Nat → Bool) : List (List EmbeddingResult) → Nat → Nat
  | [], _ => 0
  | b :: bs, k => (if ok k then 0 else b.length) + expectedErrors ok bs (k + 1)

/-! # Theorems

## Infrastructure: strings, split and join -/

theorem joinLines_cons (a : String) (t : List String) (h : t ≠ []) :
    joinLines (a :: t) = a ++ "\n" ++ joinLines t := by
  cases t with
  | nil => exact absurd rfl h
  | cons b r => rfl

theorem joinLines_append (A B : List String) (hA : A ≠ []) (hB : B ≠ []) :
    joinLines (A ++ B) = joinLines A ++ "\n" ++ joinLines B := by
  induction A with
  | nil => exact absurd rfl hA
  | cons a A ih =>
    cases A with
    | nil =>
      simp only [List.singleton_append, joinLines]
      exact joinLines_cons a B hB
    | cons a' A' =>
      rw [List.cons_append, joinLines_cons a _ (by simp),
          joinLines_cons a (a' :: A') (by simp), ih (by simp)]
      simp [String.append_assoc]

theorem splitCharList_ne_nil (sep : Char) (cs : List Char) :
    splitCharList sep cs ≠ [] := by
  cases cs with
  | nil => simp [splitCharList]
  | cons c rest =>
    simp only [splitCharList]
    cases h : splitCharList sep rest with
    | nil => simp
    | cons l ls =>
      by_cases hc : c = sep <;> simp [hc]

theorem splitCharList_of_not_mem (sep : Char) (cs : List Char) (h : sep ∉ cs) :
    splitCharList sep cs = [cs] := by
  induction cs with
  | nil => rfl
  | cons c rest ih =>
    have hc : ¬ c = sep := fun e => h (e ▸ List.mem_cons_self c rest)
    have hr : sep ∉ rest := fun e => h (List.mem_cons_of_mem c e)
    simp [splitCharList, ih hr, hc]

theorem joinCharSep_splitCharList (sep : Char) (cs : List Char) :
    joinCharSep sep (splitCharList sep cs) = cs := by
  induction cs with
  | nil => rfl
  | cons c rest ih =>
    simp only [splitCharList]
    cases h : splitCharList sep rest with
    | nil => exact absurd h (splitCharList_ne_nil sep rest)
    | cons l ls =>
      rw [h] at ih
      by_cases hc : c = sep
      · subst hc
        simp only [if_pos rfl, joinCharSep, List.nil_append]
        exact congrArg (c :: ·) ih
      · simp only [if_neg hc]
        cases ls with
        | nil => simpa [joinCharSep] using congrArg (c :: ·) ih
        | cons l2 ls2 => simpa [joinCharSep] using congrArg (c :: ·) ih

theorem joinLines_map_mk (ps : List (List Char)) :
    joinLines (ps.map String.mk) = String.mk (joinCharSep '\n' ps) := by
  induction ps with
  | nil => rfl
  | cons a ps ih =>
    cases ps with
    | nil => rfl
    | cons b ps' =>
      rw [List.map_cons, joinLines_cons _ _ (by simp),
          joinCharSep, ih]
      apply String.ext
      simp

/-- `lines.join('\n')` inverts `content.split('\n')`. -/
theorem joinLines_splitLines (s : String) : joinLines (splitLines s) = s := by
  rw [splitLines, splitChar, joinLines_map_mk, joinCharSep_splitCharList]

theorem splitLines_ne_nil (s : String) : splitLines s ≠ [] := by
  rw [splitLines, splitChar]
  intro h
  exact splitCharList_ne_nil '\n' s.data (List.map_eq_nil_iff.mp h)

theorem splitLines_no_newline (s : String) (h : '\n' ∉ s.data) :
    splitLines s = [s] := by
  rw [splitLines, splitChar, splitCharList_of_not_mem '\n' s.data h]
  simp

theorem splitCharList_append_sep (sep : Char) (a cs : List Char) (ha : sep ∉ a) :
    splitCharList sep (a ++ sep :: cs) = a :: splitCharList sep cs := by
  induction a with
  | nil =>
    simp only [List.nil_append, splitCharList]
    cases h : splitCharList sep cs with
    | nil => exact absurd h (splitCharList_ne_nil sep cs)
    | cons l ls => simp
  | cons c a' ih =>
    have hc : ¬ c = sep := fun e => ha (e ▸ List.mem_cons_self c a')
    have ha' : sep ∉ a' := fun e => ha (List.mem_cons_of_mem c e)
    rw [List.cons_append]
    simp only [splitCharList, ih ha']
    cases h : splitCharList sep cs with
    | nil => exact absurd h (splitCharList_ne_nil sep cs)
    | cons l ls => simp [hc]

/-- `content.split('\n')` inverts `lines.join('\n')` when no line contains
a newline. -/
theorem splitLines_joinLines (ls : List String) (hne : ls ≠ [])
    (h : ∀ l ∈ ls, '\n' ∉ l.data) : splitLines (joinLines ls) = ls := by
  induction ls with
  | nil => exact absurd rfl hne
  | cons a t ih =>
    cases t with
    | nil => exact splitLines_no_newline a (h a (by simp))
    | cons b t' =>
      rw [joinLines_cons a _ (by simp), splitLines, splitChar]
      have hdata : (a ++ "\n" ++ joinLines (b :: t')).data
          = a.data ++ '\n' :: (joinLines (b :: t')).data := by
        simp [String.data_append]
      rw [hdata, splitCharList_append_sep '\n' a.data _ (h a (by simp))]
      have := ih (by simp) (fun l hl => h l (List.mem_cons_of_mem a hl))
      rw [splitLines, splitChar] at this
      simp [this]

theorem jsTrim_length_pos (s : String) (h : ∃ c ∈ s.data, jsWs c = false) :
    0 < (jsTrim s).length := by
  obtain ⟨c, hc, hws⟩ := h
  rw [jsTrim]
  have len_mk : ∀ l : List Char, (String.mk l).length = l.length := fun l => rfl
  rw [len_mk, List.length_reverse, List.length_pos]
  intro hnil
  rw [List.dropWhile_eq_nil_iff] at hnil
  have hc1 : c ∈ s.data.dropWhile jsWs := by
    rcases (List.mem_append.mp
        ((List.takeWhile_append_dropWhile jsWs s.data).symm ▸ hc)) with h1 | h1
    · exact absurd (List.mem_takeWhile_imp h1) (by simp [hws])
    · exact h1
  exact absurd (hnil c (List.mem_reverse.mpr hc1)) (by simp [hws])

/-! ## The chunker's slice invariant -/

theorem chunkByLinesGo_spec (opts : ChunkOptions) (ct : ChunkType) :
    ∀ (rest pre cur : List String) (startL : Nat),
      startL ≤ pre.length → cur = pre.drop startL →
      ∀ c ∈ chunkByLinesGo opts ct rest pre.length cur startL,
        ChunkSpan (pre ++ rest) c := by
  intro rest
  induction rest with
  | nil =>
    intro pre cur startL _ _ c hc
    simp [chunkByLinesGo] at hc
  | cons l rest ih =>
    intro pre cur startL hle hcur c hc
    rw [chunkByLinesGo] at hc
    have hcur' : cur ++ [l] = (pre ++ [l]).drop startL := by
      rw [hcur, List.drop_append_of_le_length hle]
    have hlen' : (pre ++ [l]).length = pre.length + 1 := by simp
    have hassoc : (pre ++ [l]) ++ rest = pre ++ l :: rest := by simp
    set cur' := cur ++ [l] with hcdef
    set newCur := cur'.drop (cur'.length - OVERLAP_LINES) with hnewCur
    have hculen : cur'.length = pre.length + 1 - startL := by
      rw [hcur']; simp
    have hnclen : newCur.length = cur'.length - (cur'.length - OVERLAP_LINES) := by
      rw [hnewCur]; simp
    have hkey : startL + (cur'.length - OVERLAP_LINES) = pre.length + 1 - newCur.length := by
      omega
    have hnc_eq : newCur = (pre ++ [l]).drop (pre.length + 1 - newCur.length) := by
      rw [hnewCur, hcur', List.drop_drop]
      congr 1
      simp only [List.length_drop, List.length_append, List.length_cons,
        List.length_nil]
      omega
    have hnc_le : pre.length + 1 - newCur.length ≤ (pre ++ [l]).length := by
      rw [hlen']; omega
    by_cases hcond : MAX_CHUNK_CHARS ≤ (joinLines cur').length ∨ rest = []
    · rw [if_pos hcond] at hc
      simp only [List.mem_append] at hc
      rcases hc with hmem | hmem
      · -- the emitted chunk
        by_cases htrim : 0 < (jsTrim (joinLines cur')).length
        · rw [if_pos htrim, List.mem_singleton] at hmem
          subst hmem
          refine ⟨?_, by simp, by simp, fun _ => by simp; omega⟩
          show joinLines cur' = joinLines (sliceLines (pre ++ l :: rest) (startL + 1) (pre.length + 1))
          have htl : ((pre ++ [l]) ++ rest).take (pre.length + 1) = pre ++ [l] :=
            List.take_left' (by simp)
          rw [sliceLines, Nat.add_sub_cancel, ← hassoc, htl, ← hcur']
        · rw [if_neg htrim] at hmem
          simp at hmem
      · -- chunks from the rest of the loop
        have hmem' : c ∈ chunkByLinesGo opts ct rest (pre ++ [l]).length newCur
            ((pre ++ [l]).length - newCur.length) := by
          rw [hlen']; exact hmem
        have := ih (pre ++ [l]) newCur ((pre ++ [l]).length - newCur.length)
          (by omega) (by rw [hlen']; exact hnc_eq) c hmem'
        rwa [hassoc] at this
    · rw [if_neg hcond] at hc
      have hmem' : c ∈ chunkByLinesGo opts ct rest (pre ++ [l]).length cur' startL := by
        rw [hlen']; exact hc
      have := ih (pre ++ [l]) cur' startL (by rw [hlen']; omega) hcur' c hmem'
      rwa [hassoc] at this

theorem take_drop_take (full : List String) (b e n : Nat) (h : b + n ≤ e) :
    ((full.take e).drop b).take n = (full.take (b + n)).drop b := by
  rw [List.take_drop, List.take_take, min_eq_left h]

theorem splitLargeChunkGo_spec (opts : ChunkOptions) (full : List String) (b e : Nat)
    (hbe : b ≤ e) (he : e ≤ full.length) :
    ∀ (rem pre cur : List String) (d : Nat),
      pre ++ rem = (full.take e).drop b →
      d ≤ pre.length → cur = pre.drop d →
      ∀ c ∈ splitLargeChunkGo opts b rem pre.length cur (b + d),
        ChunkSpan full c := by
  have hsublen : ((full.take e).drop b).length = e - b := by
    simp only [List.length_drop, List.length_take]
    omega
  intro rem
  induction rem with
  | nil =>
    intro pre cur d hpre hd hcur c hc
    rw [List.append_nil] at hpre
    have hplen : pre.length = e - b := by rw [hpre]; exact hsublen
    rw [splitLargeChunkGo] at hc
    by_cases hemit : 0 < cur.length ∧ 0 < (jsTrim (joinLines cur)).length
    · rw [if_pos hemit, List.mem_singleton] at hc
      subst hc
      have hcur2 : cur = (full.take e).drop (b + d) := by
        rw [hcur, hpre, List.drop_drop]
      have hcl : cur.length = pre.length - d := by rw [hcur]; simp
      refine ⟨?_, by dsimp only; omega, by dsimp only; omega,
        fun _ => by dsimp only; omega⟩
      have he2 : e = b + pre.length := by omega
      show joinLines cur = joinLines (sliceLines full (b + d + 1) (b + pre.length))
      rw [sliceLines, Nat.add_sub_cancel, ← he2, hcur2]
    · rw [if_neg hemit] at hc
      simp at hc
  | cons l rem ih =>
    intro pre cur d hpre hd hcur c hc
    have hlt : pre.length + 1 ≤ e - b := by
      have := congrArg List.length hpre
      simp only [List.length_append, List.length_cons] at this
      rw [hsublen] at this
      omega
    have hpre' : (pre ++ [l]) ++ rem = (full.take e).drop b := by
      rw [← hpre]; simp
    have hpre'take : pre ++ [l] = ((full.take e).drop b).take (pre.length + 1) := by
      rw [← hpre', List.take_left' (by simp)]
    have hpre'full : pre ++ [l] = (full.take (b + (pre.length + 1))).drop b := by
      rw [hpre'take, take_drop_take full b e (pre.length + 1) (by omega)]
    have hcur' : cur ++ [l] = (pre ++ [l]).drop d := by
      rw [hcur, List.drop_append_of_le_length hd]
    have hlen' : (pre ++ [l]).length = pre.length + 1 := by simp
    rw [splitLargeChunkGo] at hc
    set cur' := cur ++ [l] with hcdef
    set newCur := cur'.drop (cur'.length - OVERLAP_LINES) with hnewCur
    have hculen : cur'.length = pre.length + 1 - d := by
      rw [hcur']; simp
    have hnclen : newCur.length = cur'.length - (cur'.length - OVERLAP_LINES) := by
      rw [hnewCur]; simp
    by_cases hcond : MAX_CHUNK_CHARS ≤ (joinLines cur').length
    · rw [if_pos hcond] at hc
      simp only [List.mem_cons] at hc
      rcases hc with hmem | hmem
      · -- the emitted window
        subst hmem
        refine ⟨?_, by dsimp only; omega, by dsimp only; omega,
          fun _ => by dsimp only; omega⟩
        show joinLines cur'
            = joinLines (sliceLines full (b + d + 1) (b + pre.length + 1))
        rw [sliceLines, Nat.add_sub_cancel]
        have : (full.take (b + pre.length + 1)).drop (b + d)
            = (pre ++ [l]).drop d := by
          rw [hpre'full, List.drop_drop]
          congr 2
        rw [this, ← hcur']
      · -- chunks of the remaining windows
        have hd' : pre.length + 1 - newCur.length ≤ (pre ++ [l]).length := by
          rw [hlen']; omega
        have harg : b + pre.length + 1 - newCur.length
            = b + (pre.length + 1 - newCur.length) := by omega
        have hnc_eq : newCur = (pre ++ [l]).drop (pre.length + 1 - newCur.length) := by
          rw [hnewCur, hcur', List.drop_drop]
          congr 1
          simp only [List.length_drop, List.length_append, List.length_cons,
            List.length_nil]
          omega
        have hmem' : c ∈ splitLargeChunkGo opts b rem (pre ++ [l]).length newCur
            (b + ((pre ++ [l]).length - newCur.length)) := by
          rw [hlen']
          rw [harg] at hmem
          exact hmem
        exact ih (pre ++ [l]) newCur ((pre ++ [l]).length - newCur.length)
          hpre' (by omega) (by rw [hlen']; exact hnc_eq) c hmem'
    · rw [if_neg hcond] at hc
      have hmem' : c ∈ splitLargeChunkGo opts b rem (pre ++ [l]).length cur' (b + d) := by
        rw [hlen']; exact hc
      exact ih (pre ++ [l]) cur' d hpre' (by rw [hlen']; omega) hcur' c hmem'

theorem chunkMarkdownGo_spec (opts : ChunkOptions) :
    ∀ (rem pre curLines : List String) (curStart : Nat),
      curStart ≤ pre.length → curLines = pre.drop curStart →
      ∀ c ∈ chunkMarkdownGo opts rem pre.length curStart curLines,
        ChunkSpan (pre ++ rem) c := by
  intro rem
  induction rem with
  | nil =>
    intro pre curLines curStart hle hcur c hc
    rw [chunkMarkdownGo] at hc
    by_cases hemit : 0 < curLines.length ∧ 0 < (jsTrim (joinLines curLines)).length
    · rw [if_pos hemit, List.mem_singleton] at hc
      subst hc
      have hcl : curLines.length = pre.length - curStart := by rw [hcur]; simp
      refine ⟨?_, by dsimp only; omega, by dsimp only; simp, fun _ => by dsimp only; omega⟩
      show joinLines curLines
          = joinLines (sliceLines (pre ++ []) (curStart + 1) pre.length)
      rw [List.append_nil, sliceLines, Nat.add_sub_cancel, List.take_length, hcur]
    · rw [if_neg hemit] at hc
      simp at hc
  | cons l rem ih =>
    intro pre curLines curStart hle hcur c hc
    rw [chunkMarkdownGo] at hc
    have hlen' : (pre ++ [l]).length = pre.length + 1 := by simp
    have hassoc : (pre ++ [l]) ++ rem = pre ++ l :: rem := by simp
    have hcur' : curLines ++ [l] = (pre ++ [l]).drop curStart := by
      rw [hcur, List.drop_append_of_le_length hle]
    by_cases hA : isMdHeader l ∧ 0 < curLines.length
    · rw [if_pos hA] at hc
      simp only [List.mem_append] at hc
      rcases hc with hmem | hmem
      · by_cases htrim : 0 < (jsTrim (joinLines curLines)).length
        · rw [if_pos htrim, List.mem_singleton] at hmem
          subst hmem
          have hcl : curLines.length = pre.length - curStart := by rw [hcur]; simp
          have h2 := hA.2
          refine ⟨?_, by dsimp only; omega, by dsimp only; simp,
            fun _ => by dsimp only; omega⟩
          show joinLines curLines
              = joinLines (sliceLines (pre ++ l :: rem) (curStart + 1) pre.length)
          rw [sliceLines, Nat.add_sub_cancel, List.take_left, hcur]
        · rw [if_neg htrim] at hmem
          simp at hmem
      · have hmem' : c ∈ chunkMarkdownGo opts rem (pre ++ [l]).length
            pre.length [l] := by
          rw [hlen']; exact hmem
        have hdropl : [l] = (pre ++ [l]).drop pre.length := by
          rw [List.drop_left]
        have := ih (pre ++ [l]) [l] pre.length (by rw [hlen']; omega) hdropl c hmem'
        rwa [hassoc] at this
    · rw [if_neg hA] at hc
      set cur' := curLines ++ [l] with hcdef
      have hculen : cur'.length = pre.length + 1 - curStart := by
        rw [hcur']; simp
      by_cases hbig : MAX_CHUNK_CHARS < (joinLines cur').length
      · rw [if_pos hbig] at hc
        simp only [List.mem_cons] at hc
        set sp := cur'.length / 2 with hspdef
        have hsp : sp ≤ cur'.length := Nat.div_le_self _ _
        rcases hc with hmem | hmem
        · subst hmem
          refine ⟨?_, by dsimp only; omega, by dsimp only; simp; omega, ?_⟩
          · show joinLines (cur'.take sp)
                = joinLines (sliceLines (pre ++ l :: rem) (curStart + 1) (curStart + sp))
            have hta : ((pre ++ [l]) ++ rem).take (curStart + sp)
                = (pre ++ [l]).take (curStart + sp) :=
              List.take_append_of_le_length (by rw [hlen']; omega)
            rw [sliceLines, Nat.add_sub_cancel, ← hassoc, hta,
              hcur', List.take_drop]
          · intro hne
            dsimp only at hne ⊢
            rcases Nat.eq_zero_or_pos sp with hz | hpos
            · rw [hz, List.take_zero] at hne
              exact absurd rfl hne
            · omega
        · have harg : curStart + sp ≤ (pre ++ [l]).length := by rw [hlen']; omega
          have hcur2 : cur'.drop sp = (pre ++ [l]).drop (curStart + sp) := by
            rw [hcur', List.drop_drop]
          have hmem' : c ∈ chunkMarkdownGo opts rem (pre ++ [l]).length
              (curStart + sp) (cur'.drop sp) := by
            rw [hlen']; exact hmem
          have := ih (pre ++ [l]) (cur'.drop sp) (curStart + sp) harg hcur2 c hmem'
          rwa [hassoc] at this
      · rw [if_neg hbig] at hc
        have hmem' : c ∈ chunkMarkdownGo opts rem (pre ++ [l]).length curStart cur' := by
          rw [hlen']; exact hc
        have := ih (pre ++ [l]) cur' curStart (by rw [hlen']; omega) hcur' c hmem'
        rwa [hassoc] at this

theorem detectGo_bounds (pats : List (String → Bool)) :
    ∀ (rem : List String) (i lastB : Nat),
      ∀ j ∈ detectCodeBoundariesGo pats rem i lastB, i ≤ j ∧ j < i + rem.length := by
  intro rem
  induction rem with
  | nil => intro i lastB j hj; simp [detectCodeBoundariesGo] at hj
  | cons l rem ih =>
    intro i lastB j hj
    rw [detectCodeBoundariesGo] at hj
    by_cases hm : pats.any (fun p => p (jsTrim l))
    · rw [if_pos hm] at hj
      by_cases hg : 5 < i - lastB
      · rw [if_pos hg] at hj
        rcases List.mem_cons.mp hj with h | h
        · subst h
          refine ⟨le_refl j, ?_⟩
          simp only [List.length_cons]
          omega
        · have := ih (i + 1) i j h
          refine ⟨by omega, ?_⟩
          simp only [List.length_cons]
          omega
      · rw [if_neg hg] at hj
        have := ih (i + 1) lastB j hj
        refine ⟨by omega, ?_⟩
        simp only [List.length_cons]
        omega
    · rw [if_neg hm] at hj
      have := ih (i + 1) lastB j hj
      refine ⟨by omega, ?_⟩
      simp only [List.length_cons]
      omega

theorem detectGo_chain (pats : List (String → Bool)) :
    ∀ (rem : List String) (i lastB : Nat), lastB ≤ i →
      List.Chain' (fun a b => a + 5 < b)
        (lastB :: detectCodeBoundariesGo pats rem i lastB) := by
  intro rem
  induction rem with
  | nil => intro i lastB _; simp [detectCodeBoundariesGo]
  | cons l rem ih =>
    intro i lastB hle
    rw [detectCodeBoundariesGo]
    by_cases hm : pats.any (fun p => p (jsTrim l))
    · rw [if_pos hm]
      by_cases hg : 5 < i - lastB
      · rw [if_pos hg]
        have htail := ih (i + 1) i (by omega)
        exact List.Chain'.cons (by omega) htail
      · rw [if_neg hg]
        exact ih (i + 1) lastB (by omega)
    · rw [if_neg hm]
      exact ih (i + 1) lastB (by omega)

theorem chunkByLines_spec (lines : List String) (opts : ChunkOptions) (ct : ChunkType) :
    ∀ c ∈ chunkByLines lines opts ct, ChunkSpan lines c := by
  intro c hc
  have := chunkByLinesGo_spec opts ct lines [] [] 0 (by simp) rfl c (by simpa using hc)
  simpa using this

theorem splitLargeChunk_spec (lines : List String) (b e : Nat) (opts : ChunkOptions)
    (hbe : b ≤ e) (he : e ≤ lines.length) :
    ∀ c ∈ splitLargeChunk ((lines.take e).drop b) b opts, ChunkSpan lines c := by
  intro c hc
  rw [splitLargeChunk] at hc
  exact splitLargeChunkGo_spec opts lines b e hbe he ((lines.take e).drop b) [] [] 0
    (by simp) (by simp) rfl c (by simpa using hc)

theorem chunkCodeSpans_spec (opts : ChunkOptions) (lines : List String) :
    ∀ (bs : List Nat), List.Chain' (· < ·) bs → (∀ x ∈ bs, x ≤ lines.length) →
      ∀ c ∈ chunkCodeSpans opts lines bs, ChunkSpan lines c := by
  intro bs
  induction bs with
  | nil => intro _ _ c hc; simp [chunkCodeSpans] at hc
  | cons b rest ih =>
    intro hchain hbound c hc
    rw [chunkCodeSpans.eq_def] at hc
    dsimp only at hc
    simp only [List.mem_append] at hc
    set e := (match rest with
      | [] => lines.length
      | b2 :: _ => b2) with hedef
    have hbe : b ≤ e ∧ e ≤ lines.length := by
      cases rest with
      | nil =>
        exact ⟨by rw [hedef]; exact hbound b (by simp), by rw [hedef]⟩
      | cons b2 rest' =>
        have hb2 : b < b2 := (List.chain'_cons.mp hchain).1
        exact ⟨by rw [hedef]; exact Nat.le_of_lt hb2,
          by rw [hedef]; exact hbound b2 (by simp)⟩
    rcases hc with hmem | hmem
    · by_cases hbig : MAX_CHUNK_CHARS < (joinLines ((lines.take e).drop b)).length
      · rw [if_pos hbig] at hmem
        exact splitLargeChunk_spec lines b e opts hbe.1 hbe.2 c hmem
      · rw [if_neg hbig] at hmem
        by_cases htrim : 0 < (jsTrim (joinLines ((lines.take e).drop b))).length
        · rw [if_pos htrim, List.mem_singleton] at hmem
          subst hmem
          refine ⟨?_, by dsimp only; omega, by dsimp only; exact hbe.2, ?_⟩
          · show joinLines ((lines.take e).drop b)
                = joinLines (sliceLines lines (b + 1) e)
            rw [sliceLines, Nat.add_sub_cancel]
          · intro hne
            dsimp only at hne ⊢
            have hlen : 0 < ((lines.take e).drop b).length := by
              by_contra h0
              push_neg at h0
              have : (lines.take e).drop b = [] :=
                List.eq_nil_of_length_eq_zero (by omega)
              rw [this] at hne
              exact absurd rfl hne
            simp only [List.length_drop, List.length_take] at hlen
            omega
        · rw [if_neg htrim] at hmem
          simp at hmem
    · exact ih (List.Chain'.tail hchain)
        (fun x hx => hbound x (List.mem_cons_of_mem b hx)) c hmem

theorem chunkCodeLines_spec (lines : List String) (opts : ChunkOptions) :
    ∀ c ∈ chunkCodeLines lines opts, ChunkSpan lines c := by
  intro c hc
  rw [chunkCodeLines, detectCodeBoundaries] at hc
  rw [if_pos (by simp)] at hc
  refine chunkCodeSpans_spec opts lines _ ?_ ?_ c hc
  · have := detectGo_chain
      (langPatterns (jsToLower ((splitChar '.' opts.filePath).getLastD "")))
      lines 0 0 (by omega)
    exact this.imp (fun h => by omega)
  · intro x hx
    rcases List.mem_cons.mp hx with h | h
    · omega
    · have := detectGo_bounds
        (langPatterns (jsToLower ((splitChar '.' opts.filePath).getLastD "")))
        lines 0 0 x h
      omega

/-- Master invariant of the chunker: every chunk `chunkFile` emits is the
exact rejoin of the (1-based, inclusive) slice of the file's lines it
claims to span, its line numbers are within the file, and whenever its
content is non-empty its range is non-degenerate. -/
theorem chunkFile_spec (content : String) (opts : ChunkOptions) :
    ∀ c ∈ chunkFile content opts, ChunkSpan (splitLines content) c := by
  intro c hc
  rw [chunkFile] at hc
  cases hft : getFileType opts.filePath <;> rw [hft] at hc
  · -- code
    rw [chunkCode] at hc
    exact chunkCodeLines_spec (splitLines content) opts c hc
  · -- markdown
    rw [chunkMarkdown] at hc
    have := chunkMarkdownGo_spec opts (splitLines content) [] [] 0
      (by simp) rfl c (by simpa using hc)
    simpa using this
  · -- config
    rw [chunkConfig] at hc
    by_cases hsmall : content.length ≤ MAX_CHUNK_CHARS
    · rw [if_pos hsmall, List.mem_singleton] at hc
      subst hc
      have hnn := splitLines_ne_nil content
      have hpos : 0 < (splitLines content).length := List.length_pos.mpr hnn
      refine ⟨?_, by dsimp only; omega, by dsimp only; omega,
        fun _ => by dsimp only; omega⟩
      show content = joinLines
        (sliceLines (splitLines content) 1 (splitLines content).length)
      rw [sliceLines, Nat.sub_self, List.take_length, List.drop_zero,
        joinLines_splitLines]
    · rw [if_neg hsmall] at hc
      exact chunkByLines_spec (splitLines content) opts .config c hc
  · -- text
    rw [chunkText] at hc
    exact chunkByLines_spec (splitLines content) opts .text c hc

/-! ## C1: chunk line-range / content correspondence -/

/-- The single oversized markdown line that breaks `start_line ≤ end_line`. -/
def mdBigLine : String := String.mk (List.replicate 2049 'a')

def c1Opts : ChunkOptions := { fileId := "f", projectId := "p", filePath := "doc.md" }

/-- The degenerate chunk the markdown oversize split emits on `mdBigLine`. -/
def c1Bad : ChunkRec :=
  { file_id := "f"
    project_id := "p"
    content := ""
    start_line := 1
    end_line := 0
    chunk_type := ChunkType.markdown }

theorem mdBigLine_split : splitLines mdBigLine = [mdBigLine] := by
  apply splitLines_no_newline
  intro h
  have : '\n' = 'a' := List.eq_of_mem_replicate h
  simp at this

theorem c1_eval : chunkFile mdBigLine c1Opts
    = c1Bad :: chunkMarkdownGo c1Opts [] 1 0 [mdBigLine] := by
  have hlen : (joinLines ([] ++ [mdBigLine])).length = 2049 := by
    show (List.replicate 2049 'a').length = 2049
    exact List.length_replicate 2049 'a'
  rw [chunkFile, show getFileType c1Opts.filePath = ChunkType.markdown from by decide]
  show chunkMarkdown mdBigLine c1Opts = _
  rw [chunkMarkdown, mdBigLine_split]
  conv_lhs => rw [chunkMarkdownGo]
  rw [if_neg (by simp), if_pos (by rw [hlen]; decide)]
  simp [joinLines, c1Bad, c1Opts]

/-- C1, counterexample: on the markdown file consisting of a single line
of 2049 characters, the oversize mid-split emits a chunk with
`start_line = 1 > end_line = 0` (and empty content), refuting the
claimed invariant `start_line ≤ end_line` for all chunks. -/
theorem C1_counterexample :
    ¬ ∀ c ∈ chunkFile mdBigLine c1Opts, c.start_line ≤ c.end_line := by
  intro h
  have hm := h c1Bad (by rw [c1_eval]; exact List.mem_cons_self _ _)
  rw [c1Bad] at hm
  dsimp only at hm
  omega

/-- C1 (amended): for every input string and file path, every chunk
emitted by the chunker has in-range line numbers, its content equals the
join of the input's lines from `start_line` to `end_line` inclusive
(1-based; an empty range joins to `""`), and `start_line ≤ end_line`
holds whenever the chunk's content is non-empty — the only violations of
`start_line ≤ end_line` are empty-content chunks produced by the
markdown oversize split of a single-line section. -/
theorem C1_chunk_line_invariant (content : String) (opts : ChunkOptions) :
    ∀ c ∈ chunkFile content opts,
      c.content = joinLines (sliceLines (splitLines content) c.start_line c.end_line)
      ∧ 1 ≤ c.start_line ∧ c.end_line ≤ (splitLines content).length
      ∧ (c.content ≠ "" → c.start_line ≤ c.end_line) :=
  chunkFile_spec content opts

/-- The first chunk of the two-section markdown witness file. -/
def c1Good : ChunkRec :=
  { file_id := "f"
    project_id := "p"
    content := "# A\nx"
    start_line := 1
    end_line := 2
    chunk_type := ChunkType.markdown }

/-- C1, witness: the invariant instantiated on a two-section markdown
file and its first emitted chunk. -/
theorem C1_chunk_line_invariant_witness :
    c1Good ∈ chunkFile "# A\nx\n# B\ny" c1Opts
    ∧ (c1Good.content
        = joinLines (sliceLines (splitLines "# A\nx\n# B\ny")
            c1Good.start_line c1Good.end_line)
      ∧ 1 ≤ c1Good.start_line
      ∧ c1Good.end_line ≤ (splitLines "# A\nx\n# B\ny").length
      ∧ (c1Good.content ≠ "" → c1Good.start_line ≤ c1Good.end_line)) :=
  ⟨by decide, C1_chunk_line_invariant "# A\nx\n# B\ny" c1Opts c1Good (by decide)⟩

/-! ## C6: boundary acceptance spacing -/

/-- C6, counterexample: in a `.ts` file, the line at index 5 matches a
language pattern and lies exactly 5 lines after the previous accepted
boundary (index 0), yet it is rejected: the code requires a gap
strictly greater than 5 (`i - lastBoundary > 5`), not at least 5. -/
theorem C6_counterexample :
    (langPatterns "ts").any (fun p => p (jsTrim "function b()")) = true
    ∧ detectCodeBoundaries ["function a()", "x", "x", "x", "x", "function b()"]
        "a.ts" = [0] := by
  constructor
  · decide
  · decide

/-- C6 (amended): a candidate boundary is accepted only if strictly more
than 5 lines (at least 6) separate it from the previously accepted
boundary: consecutive accepted boundaries always differ by more than 5,
a matching candidate exactly 6 lines after the previous accepted
boundary is accepted, and one exactly 5 lines after is rejected. -/
theorem C6_boundary_gap :
    (∀ (lines : List String) (filePath : String),
        List.Chain' (fun a b => a + 5 < b) (detectCodeBoundaries lines filePath))
    ∧ detectCodeBoundaries ["function a()", "x", "x", "x", "x", "x", "function b()"]
        "a.ts" = [0, 6]
    ∧ detectCodeBoundaries ["function a()", "x", "x", "x", "x", "function c()"]
        "a.ts" = [0] := by
  refine ⟨?_, by decide, by decide⟩
  intro lines filePath
  rw [detectCodeBoundaries]
  exact detectGo_chain _ lines 0 0 (le_refl 0)

/-! ## C8: no-boundary code files degrade to fixed-size windowing -/

theorem detectGo_nomatch (pats : List (String → Bool)) :
    ∀ (rem : List String) (i lastB : Nat),
      (∀ l ∈ rem, ∀ p ∈ pats, p (jsTrim l) = false) →
      detectCodeBoundariesGo pats rem i lastB = [] := by
  intro rem
  induction rem with
  | nil => intro i lastB _; rfl
  | cons l rem ih =>
    intro i lastB h
    rw [detectCodeBoundariesGo]
    have hm : pats.any (fun p => p (jsTrim l)) = false := by
      rw [List.any_eq_false]
      intro p hp
      simp [h l (List.mem_cons_self l rem) p hp]
    rw [if_neg (by simp [hm])]
    exact ih (i + 1) lastB (fun l' hl' => h l' (List.mem_cons_of_mem _ hl'))

/-- The 3-line-overlap relation between consecutive windows: whenever the
earlier chunk's window spans at least 3 lines, the next chunk starts
exactly at the earlier chunk's `end_line - 2`. -/
def overlapRel (c1 c2 : ChunkRec) : Prop :=
  c1.start_line + 2 ≤ c1.end_line → c2.start_line + 2 = c1.end_line

theorem slcGo_chain (opts : ChunkOptions) (b : Nat) :
    ∀ (rem cur : List String) (i d : Nat), d ≤ i → cur.length = i - d →
      List.Chain' overlapRel (splitLargeChunkGo opts b rem i cur (b + d))
      ∧ ∀ c0, (splitLargeChunkGo opts b rem i cur (b + d)).head? = some c0 →
          c0.start_line = b + d + 1 := by
  intro rem
  induction rem with
  | nil =>
    intro cur i d hd hlen
    rw [splitLargeChunkGo]
    by_cases hemit : 0 < cur.length ∧ 0 < (jsTrim (joinLines cur)).length
    · rw [if_pos hemit]
      refine ⟨List.chain'_singleton _, fun c0 h => ?_⟩
      simp only [List.head?_cons, Option.some.injEq] at h
      subst h
      rfl
    · rw [if_neg hemit]
      exact ⟨List.chain'_nil, fun c0 h => by simp at h⟩
  | cons l rem ih =>
    intro cur i d hd hlen
    rw [splitLargeChunkGo]
    set cur' := cur ++ [l] with hcdef
    have hov : OVERLAP_LINES = 3 := rfl
    have hc'len : cur'.length = i + 1 - d := by
      rw [hcdef]
      simp only [List.length_append, List.length_cons, List.length_nil]
      omega
    by_cases hcond : MAX_CHUNK_CHARS ≤ (joinLines cur').length
    · rw [if_pos hcond]
      set newCur := cur'.drop (cur'.length - OVERLAP_LINES) with hncdef
      have hnclen : newCur.length = cur'.length - (cur'.length - OVERLAP_LINES) := by
        rw [hncdef]; simp
      have harg : b + i + 1 - newCur.length = b + (i + 1 - newCur.length) := by omega
      have IH := ih newCur (i + 1) (i + 1 - newCur.length) (by omega) (by omega)
      dsimp only
      rw [harg]
      rw [List.chain'_cons']
      refine ⟨⟨?_, IH.1⟩, fun c0 h => ?_⟩
      · intro y hy
        have hystart := IH.2 y hy
        intro hwide
        dsimp only at hwide ⊢
        rw [hystart]
        omega
      · simp only [List.head?_cons, Option.some.injEq] at h
        subst h
        rfl
    · rw [if_neg hcond]
      exact ih cur' (i + 1) d (by omega) (by omega)


/-- C8 (amended): for a code file in which no language boundary pattern
matches any line, the detected boundary list is just `[0]`, so chunkCode
emits the whole file as a single code chunk when its length is within
the budget (nothing if blank), and otherwise equals `splitLargeChunk`
fixed-size windowing over the whole file — not `chunkByLines` (that
fallback is unreachable).  Between consecutive emitted chunks the
overlap is exactly 3 lines (next `start_line` = previous `end_line - 2`)
whenever the earlier window spans at least 3 lines; shorter windows give
a shorter overlap. -/
theorem chunkCode_nomatch_eq (content : String) (opts : ChunkOptions)
    (hno : ∀ l ∈ splitLines content,
        ∀ p ∈ langPatterns (jsToLower ((splitChar '.' opts.filePath).getLastD "")),
          p (jsTrim l) = false) :
    chunkCode content opts
      = (if MAX_CHUNK_CHARS < content.length then
           splitLargeChunk (splitLines content) 0 opts
         else if 0 < (jsTrim content).length then
           [{ file_id := opts.fileId, project_id := opts.projectId,
              content := content, start_line := 1,
              end_line := (splitLines content).length,
              chunk_type := ChunkType.code }]
         else []) := by
  have hb : detectCodeBoundaries (splitLines content) opts.filePath = [0] := by
    rw [detectCodeBoundaries]
    rw [detectGo_nomatch _ _ 0 0 hno]
  rw [chunkCode, chunkCodeLines]
  rw [hb, if_pos (by simp), chunkCodeSpans.eq_def]
  dsimp only
  rw [List.take_length, List.drop_zero, joinLines_splitLines,
    show chunkCodeSpans opts (splitLines content) [] = [] from rfl,
    List.append_nil]

/-- C8 (amended): for a code file in which no language boundary pattern
matches any line, the detected boundary list is just `[0]`, so chunkCode
emits the whole file as a single code chunk when its length is within
the budget (nothing if blank), and otherwise equals `splitLargeChunk`
fixed-size windowing over the whole file — not `chunkByLines` (that
fallback is unreachable).  Between consecutive emitted chunks the
overlap is exactly 3 lines (next `start_line` = previous `end_line - 2`)
whenever the earlier window spans at least 3 lines; shorter windows give
a shorter overlap. -/
theorem C8_no_boundary_windowing (content : String) (opts : ChunkOptions)
    (hno : ∀ l ∈ splitLines content,
        ∀ p ∈ langPatterns (jsToLower ((splitChar '.' opts.filePath).getLastD "")),
          p (jsTrim l) = false) :
    chunkCode content opts
      = (if MAX_CHUNK_CHARS < content.length then
           splitLargeChunk (splitLines content) 0 opts
         else if 0 < (jsTrim content).length then
           [{ file_id := opts.fileId, project_id := opts.projectId,
              content := content, start_line := 1,
              end_line := (splitLines content).length,
              chunk_type := ChunkType.code }]
         else [])
    ∧ List.Chain' overlapRel (chunkCode content opts) := by
  refine ⟨chunkCode_nomatch_eq content opts hno, ?_⟩
  rw [chunkCode_nomatch_eq content opts hno]
  by_cases h1 : MAX_CHUNK_CHARS < content.length
  · rw [if_pos h1, splitLargeChunk]
    have := (slcGo_chain opts 0 (splitLines content) [] 0 0 (le_refl 0) (by simp)).1
    simpa using this
  · rw [if_neg h1]
    by_cases h2 : 0 < (jsTrim content).length
    · rw [if_pos h2]; exact List.chain'_singleton _
    · rw [if_neg h2]; exact List.chain'_nil

def c8WOpts : ChunkOptions := { fileId := "f", projectId := "p", filePath := "a.ts" }

/-- C8, witness: the amended statement instantiated on a small `.ts`
file none of whose lines matches a boundary pattern. -/
theorem C8_no_boundary_windowing_witness :
    (∀ l ∈ splitLines "x\ny",
        ∀ p ∈ langPatterns (jsToLower ((splitChar '.' c8WOpts.filePath).getLastD "")),
          p (jsTrim l) = false)
    ∧ (chunkCode "x\ny" c8WOpts
        = (if MAX_CHUNK_CHARS < ("x\ny" : String).length then
             splitLargeChunk (splitLines "x\ny") 0 c8WOpts
           else if 0 < (jsTrim "x\ny").length then
             [{ file_id := c8WOpts.fileId, project_id := c8WOpts.projectId,
                content := "x\ny", start_line := 1,
                end_line := (splitLines "x\ny").length,
                chunk_type := ChunkType.code }]
           else [])
      ∧ List.Chain' overlapRel (chunkCode "x\ny" c8WOpts)) :=
  ⟨by decide, C8_no_boundary_windowing "x\ny" c8WOpts (by decide)⟩


def c8Line : String := String.mk (List.replicate 3000 'a')

def c8Content : String := joinLines [c8Line, c8Line]

def c8Opts : ChunkOptions := { fileId := "f", projectId := "p", filePath := "big.c" }

theorem c8Line_length : c8Line.length = 3000 := by
  show (List.replicate 3000 'a').length = 3000
  exact List.length_replicate 3000 'a'

theorem c8Line_no_nl : '\n' ∉ c8Line.data := by
  intro h
  have : '\n' = 'a' := List.eq_of_mem_replicate h
  simp at this

theorem c8_split : splitLines c8Content = [c8Line, c8Line] := by
  rw [c8Content]
  apply splitLines_joinLines _ (by simp)
  intro l hl
  rcases List.mem_cons.mp hl with h | h
  · subst h; exact c8Line_no_nl
  · simp only [List.mem_singleton] at h; subst h; exact c8Line_no_nl

theorem c8_join1_len : (joinLines [c8Line]).length = 3000 := c8Line_length

theorem c8_join2_len : (joinLines [c8Line, c8Line]).length = 6001 := by
  show (c8Line ++ "\n" ++ c8Line).length = 6001
  rw [String.length_append, String.length_append, c8Line_length]
  rfl

theorem c8_join2_trim : 0 < (jsTrim (joinLines [c8Line, c8Line])).length := by
  apply jsTrim_length_pos
  refine ⟨'a', ?_, rfl⟩
  show 'a' ∈ (c8Line ++ "\n" ++ c8Line).data
  rw [String.data_append]
  refine List.mem_append.mpr (Or.inr ?_)
  show 'a' ∈ List.replicate 3000 'a'
  exact List.mem_replicate.mpr ⟨by norm_num, rfl⟩

theorem c8_code_pairs :
    (chunkCode c8Content c8Opts).map (fun c => (c.start_line, c.end_line))
      = [(1, 1), (1, 2), (1, 2)] := by
  have hno : ∀ l ∈ splitLines c8Content,
      ∀ p ∈ langPatterns (jsToLower ((splitChar '.' c8Opts.filePath).getLastD "")),
        p (jsTrim l) = false := by
    intro l _ p hp
    rw [show langPatterns (jsToLower ((splitChar '.' c8Opts.filePath).getLastD ""))
        = [] from rfl] at hp
    exact absurd hp (List.not_mem_nil p)
  have hbig : MAX_CHUNK_CHARS < c8Content.length := by
    rw [show c8Content.length = 6001 from c8_join2_len]
    decide
  rw [chunkCode_nomatch_eq c8Content c8Opts hno, if_pos hbig, c8_split, splitLargeChunk]
  rw [splitLargeChunkGo]
  dsimp only [List.nil_append]
  rw [if_pos (show MAX_CHUNK_CHARS ≤ (joinLines [c8Line]).length by
    rw [c8_join1_len]; decide)]
  norm_num [OVERLAP_LINES]
  rw [splitLargeChunkGo]
  dsimp only [List.singleton_append]
  rw [if_pos (show MAX_CHUNK_CHARS ≤ (joinLines [c8Line, c8Line]).length by
    rw [c8_join2_len]; decide)]
  norm_num [OVERLAP_LINES]
  rw [splitLargeChunkGo]
  rw [if_pos ⟨by norm_num, c8_join2_trim⟩]
  norm_num


theorem c8_join1_trim : 0 < (jsTrim (joinLines [c8Line])).length := by
  apply jsTrim_length_pos
  refine ⟨'a', ?_, rfl⟩
  show 'a' ∈ List.replicate 3000 'a'
  exact List.mem_replicate.mpr ⟨by norm_num, rfl⟩

theorem c8_bylines_pairs :
    (chunkByLines (splitLines c8Content) c8Opts ChunkType.code).map
      (fun c => (c.start_line, c.end_line)) = [(1, 1), (1, 2)] := by
  rw [c8_split, chunkByLines]
  rw [chunkByLinesGo]
  dsimp only [List.nil_append]
  rw [if_pos (Or.inl (show MAX_CHUNK_CHARS ≤ (joinLines [c8Line]).length by
    rw [c8_join1_len]; decide))]
  rw [if_pos c8_join1_trim]
  norm_num [OVERLAP_LINES]
  rw [chunkByLinesGo]
  dsimp only [List.singleton_append]
  rw [if_pos (Or.inr rfl)]
  rw [if_pos c8_join2_trim]
  norm_num [OVERLAP_LINES]
  rw [chunkByLinesGo]

/-- C8, counterexample: for the `.c` file made of two 3000-character
lines (no boundary pattern matches), chunkCode emits chunks spanning
(1,1), (1,2), (1,2): the final remainder duplicates the previous window,
the consecutive pair (1,1) → (1,2) (which is not at the last chunk) has
a 1-line overlap instead of the claimed exact 3-line overlap
(`next.start_line = prev.end_line - 2` fails: 1 ≠ 1 - 2), and the
result differs from fixed-size windowing over the whole file
(`chunkByLines`), which emits only (1,1), (1,2). -/
theorem C8_counterexample :
    (chunkCode c8Content c8Opts).map (fun c => (c.start_line, c.end_line))
      = [(1, 1), (1, 2), (1, 2)]
    ∧ chunkCode c8Content c8Opts
        ≠ chunkByLines (splitLines c8Content) c8Opts ChunkType.code := by
  refine ⟨c8_code_pairs, fun h => ?_⟩
  have hmap := congrArg (List.map (fun c : ChunkRec => (c.start_line, c.end_line))) h
  rw [c8_code_pairs, c8_bylines_pairs] at hmap
  simp at hmap


/-! ## C7: round-trip through the readFileTool join -/

theorem contiguous_le :
    ∀ (cs : List ChunkRec) (s n : Nat), contiguousFromB s cs n = true → s ≤ n + 1 := by
  intro cs
  induction cs with
  | nil =>
    intro s n h
    simp only [contiguousFromB, beq_iff_eq] at h
    omega
  | cons c cs ih =>
    intro s n h
    simp only [contiguousFromB, Bool.and_eq_true, beq_iff_eq, Nat.ble_eq] at h
    have := ih (c.end_line + 1) n h.2
    omega

theorem contiguous_start_le :
    ∀ (cs : List ChunkRec) (s n : Nat), contiguousFromB s cs n = true →
      ∀ c' ∈ cs, s ≤ c'.start_line := by
  intro cs
  induction cs with
  | nil => intro s n _ c' hc'; simp at hc'
  | cons c cs ih =>
    intro s n h c' hc'
    simp only [contiguousFromB, Bool.and_eq_true, beq_iff_eq, Nat.ble_eq] at h
    rcases List.mem_cons.mp hc' with he | hm
    · subst he; omega
    · have := ih (c.end_line + 1) n h.2 c' hm
      omega

theorem contiguous_sorted :
    ∀ (cs : List ChunkRec) (s n : Nat), contiguousFromB s cs n = true →
      List.Sorted (fun a b : ChunkRec => a.start_line ≤ b.start_line) cs := by
  intro cs
  induction cs with
  | nil => intro s n _; exact List.sorted_nil
  | cons c cs ih =>
    intro s n h
    simp only [contiguousFromB, Bool.and_eq_true, beq_iff_eq, Nat.ble_eq] at h
    rw [List.sorted_cons]
    refine ⟨fun b hb => ?_, ih (c.end_line + 1) n h.2⟩
    have := contiguous_start_le cs (c.end_line + 1) n h.2 b hb
    omega

theorem contiguous_join (lines : List String) :
    ∀ (cs : List ChunkRec) (s : Nat), 1 ≤ s →
      contiguousFromB s cs lines.length = true →
      (∀ c ∈ cs, c.content = joinLines (sliceLines lines c.start_line c.end_line)) →
      joinLines (cs.map (fun c => c.content)) = joinLines (lines.drop (s - 1)) := by
  intro cs
  induction cs with
  | nil =>
    intro s _ h _
    simp only [contiguousFromB, beq_iff_eq] at h
    subst h
    rw [Nat.add_sub_cancel, List.drop_length]
    rfl
  | cons c cs ih =>
    intro s hs h hcont
    simp only [contiguousFromB, Bool.and_eq_true, beq_iff_eq, Nat.ble_eq] at h
    obtain ⟨⟨hstart, hse⟩, hrest⟩ := h
    have hc := hcont c (List.mem_cons_self c cs)
    rw [sliceLines, hstart] at hc
    cases cs with
    | nil =>
      have hend : c.end_line = lines.length := by
        simp only [contiguousFromB, beq_iff_eq] at hrest
        omega
      rw [List.map_cons, List.map_nil]
      show c.content = joinLines (lines.drop (s - 1))
      rw [hc, hend, List.take_length]
    | cons c2 cs' =>
      have hnext : c.end_line < lines.length := by
        simp only [contiguousFromB, Bool.and_eq_true, beq_iff_eq, Nat.ble_eq] at hrest
        have := contiguous_le cs' (c2.end_line + 1) lines.length hrest.2
        omega
      have htail := ih (c.end_line + 1) (by omega) hrest
        (fun c' hc' => hcont c' (List.mem_cons_of_mem c hc'))
      rw [Nat.add_sub_cancel] at htail
      rw [List.map_cons,
        joinLines_cons _ _ (by simp), htail, hc]
      have hsplit : lines.drop (s - 1)
          = (lines.take c.end_line).drop (s - 1) ++ lines.drop c.end_line := by
        conv_lhs => rw [← List.take_append_drop c.end_line lines]
        rw [List.drop_append_of_le_length]
        simp only [List.length_take]
        omega
      rw [hsplit, joinLines_append]
      · have hlen : ((lines.take c.end_line).drop (s - 1)).length
            = c.end_line - (s - 1) := by
          simp only [List.length_drop, List.length_take]
          omega
        intro hnil
        rw [hnil] at hlen
        simp at hlen
        omega
      · intro hnil
        rw [List.drop_eq_nil_iff] at hnil
        omega

def c7Opts : ChunkOptions := { fileId := "f", projectId := "p", filePath := "doc.md" }

/-- C7, counterexample: the markdown file `"   \n# A\nx"` chunks to a
single chunk spanning lines 2-3 (the leading whitespace-only section is
discarded, leaving line 1 uncovered); the chunk set is trivially
non-overlapping, yet the readFileTool join does not reproduce the
original content. -/
theorem C7_counterexample :
    List.Pairwise (fun c1 c2 => c1.end_line < c2.start_line ∨ c2.end_line < c1.start_line)
      (chunkFile "   \n# A\nx" c7Opts)
    ∧ readFileJoin (chunkFile "   \n# A\nx" c7Opts) ≠ "   \n# A\nx" := by
  constructor
  · decide
  · decide

/-- C7 (amended): the round-trip holds under the stronger hypothesis
that the chunk ranges form a contiguous exact cover of the file's lines
(first chunk starts at line 1, each subsequent chunk starts right after
its predecessor ends, the last chunk ends at the last line): then
joining the chunk contents ordered by `start_line` with newlines, as
`readFileTool` does, reproduces the original file content exactly.
Non-overlap alone does not suffice, because whitespace-only chunks are
discarded and leave uncovered lines. -/
theorem C7_round_trip (content : String) (opts : ChunkOptions)
    (h : contiguousFromB 1 (chunkFile content opts) (splitLines content).length = true) :
    readFileJoin (chunkFile content opts) = content := by
  have hsorted := contiguous_sorted (chunkFile content opts) 1 _ h
  rw [readFileJoin, sortByStart, List.Sorted.insertionSort_eq hsorted]
  have hjoin := contiguous_join (splitLines content) (chunkFile content opts) 1
    (le_refl 1) h (fun c hc => (chunkFile_spec content opts c hc).1)
  rw [hjoin]
  simp only [Nat.sub_self, List.drop_zero]
  exact joinLines_splitLines content

/-- C7, witness: the amended round-trip on a two-section markdown file
whose chunks contiguously cover all four lines. -/
theorem C7_round_trip_witness :
    contiguousFromB 1 (chunkFile "# A\nx\n# B\ny" c7Opts)
      (splitLines "# A\nx\n# B\ny").length = true
    ∧ readFileJoin (chunkFile "# A\nx\n# B\ny" c7Opts) = "# A\nx\n# B\ny" :=
  ⟨by decide, C7_round_trip "# A\nx\n# B\ny" c7Opts (by decide)⟩


/-! ## C5: conversation history loading -/

instance : IsTotal MessageRow (fun a b => a.created_at ≤ b.created_at) :=
  ⟨fun a b => Nat.le_total a.created_at b.created_at⟩

instance : IsTrans MessageRow (fun a b => a.created_at ≤ b.created_at) :=
  ⟨fun _ _ _ => Nat.le_trans⟩

def c5Messages : List MessageRow :=
  (List.range 11).map (fun n =>
    { id := toString n, conversation_id := "c", role := "user",
      content := toString n, created_at := n + 1 })

/-- C5, counterexample: for a conversation with 11 messages created at
times 1..11, the history query (`ORDER BY created_at ASC LIMIT 10`)
returns the messages created at 1..10 — the 10 oldest — not the 10 most
recent (2..11) the claim describes; in particular the most recent
message is absent. -/
theorem C5_counterexample :
    (loadConversationHistory c5Messages "c").map (fun m => m.created_at)
      = [1, 2, 3, 4, 5, 6, 7, 8, 9, 10]
    ∧ loadConversationHistory c5Messages "c" ≠ specLastTenMessages c5Messages "c" := by
  constructor
  · decide
  · decide

/-- C5 (amended): with a `conversationId` supplied, the loaded history
is the first 10 messages of that conversation in ascending
creation-time order — the 10 oldest, not the 10 most recent: it is
sorted ascending, has `min 10 count` entries, and every message of the
conversation left out has a creation time at least that of every message
included. -/
theorem C5_history_oldest_ten (messages : List MessageRow) (conversationId : String) :
    List.Sorted (fun a b : MessageRow => a.created_at ≤ b.created_at)
      (loadConversationHistory messages conversationId)
    ∧ (loadConversationHistory messages conversationId).length
        = min 10 (messages.filter (fun m => m.conversation_id = conversationId)).length
    ∧ ∀ x ∈ loadConversationHistory messages conversationId,
        ∀ y ∈ messages.filter (fun m => m.conversation_id = conversationId),
          y ∉ loadConversationHistory messages conversationId →
            x.created_at ≤ y.created_at := by
  have hsorted := List.sorted_insertionSort
    (fun a b : MessageRow => a.created_at ≤ b.created_at)
    (messages.filter (fun m => m.conversation_id = conversationId))
  have hperm := List.perm_insertionSort
    (fun a b : MessageRow => a.created_at ≤ b.created_at)
    (messages.filter (fun m => m.conversation_id = conversationId))
  refine ⟨?_, ?_, ?_⟩
  · exact List.Pairwise.sublist (List.take_sublist 10 _) hsorted
  · rw [loadConversationHistory, List.length_take, hperm.length_eq]
  · intro x hx y hy hnot
    have hysorted : y ∈ (messages.filter
        (fun m => m.conversation_id = conversationId)).insertionSort
        (fun a b : MessageRow => a.created_at ≤ b.created_at) :=
      hperm.mem_iff.mpr hy
    rw [← List.take_append_drop 10 ((messages.filter
      (fun m => m.conversation_id = conversationId)).insertionSort
      (fun a b : MessageRow => a.created_at ≤ b.created_at))] at hysorted
    rcases List.mem_append.mp hysorted with hyin | hyin
    · exact absurd hyin hnot
    · rw [← List.take_append_drop 10 ((messages.filter
        (fun m => m.conversation_id = conversationId)).insertionSort
        (fun a b : MessageRow => a.created_at ≤ b.created_at))] at hsorted
      exact (List.pairwise_append.mp hsorted).2.2 x hx y hyin

/-- C5, witness: the amended statement instantiated on the 11-message
conversation. -/
theorem C5_history_oldest_ten_witness :
    List.Sorted (fun a b : MessageRow => a.created_at ≤ b.created_at)
      (loadConversationHistory c5Messages "c")
    ∧ (loadConversationHistory c5Messages "c").length
        = min 10 (c5Messages.filter (fun m => m.conversation_id = "c")).length
    ∧ ∀ x ∈ loadConversationHistory c5Messages "c",
        ∀ y ∈ c5Messages.filter (fun m => m.conversation_id = "c"),
          y ∉ loadConversationHistory c5Messages "c" →
            x.created_at ≤ y.created_at :=
  C5_history_oldest_ten c5Messages "c"


/-! ## C3: the daily embedding quota guard -/

/-- C3: if the stored daily counter plus the batch size exceeds the
daily limit (and the batch is non-empty, so the early as-is return for
empty input is not taken), `generateEmbeddings` fails with the
quota-exceeded error, performs no AI embedding call, and leaves the
stored counter unchanged. -/
theorem C3_quota_guard (ora : Oracle) (s : Sys) (texts : List String)
    (hne : texts.length ≠ 0)
    (hover : DAILY_EMBEDDING_LIMIT < s.kvEmbedCount + texts.length) :
    (generateEmbeddings ora s texts).1 = Except.error "Daily embedding limit reached"
    ∧ (generateEmbeddings ora s texts).2.kvEmbedCount = s.kvEmbedCount
    ∧ (generateEmbeddings ora s texts).2.aiCalls = s.aiCalls := by
  simp [generateEmbeddings, hne, hover]

def demoOracle : Oracle :=
  { genId := fun n => "id" ++ toString n
    hashF := fun s => "h:" ++ s
    nowMs := 1700000000000
    aiOk := fun _ => true
    aiEmbed := fun ts => ts.map (fun _ => [1])
    upsertOk := fun _ => true
    deleteOk := fun _ => true }

def emptySys : Sys :=
  { db := { projects := [], files := [], chunks := [] }
    vectors := []
    kvEmbedCount := 0
    idCalls := 0
    genEmbCalls := 0
    aiCalls := 0
    upsertCalls := 0
    deleteCalls := 0 }

def c3Sys : Sys := { emptySys with kvEmbedCount := DAILY_EMBEDDING_LIMIT - 2 }

/-- C3, witness: the counter pre-seeded at `limit - 2` with a batch of 5
texts fails before any embedding call and leaves the counter unchanged. -/
theorem C3_quota_guard_witness :
    (generateEmbeddings demoOracle c3Sys ["t1", "t2", "t3", "t4", "t5"]).1
        = Except.error "Daily embedding limit reached"
    ∧ (generateEmbeddings demoOracle c3Sys ["t1", "t2", "t3", "t4", "t5"]).2.kvEmbedCount
        = c3Sys.kvEmbedCount
    ∧ (generateEmbeddings demoOracle c3Sys ["t1", "t2", "t3", "t4", "t5"]).2.aiCalls
        = c3Sys.aiCalls :=
  C3_quota_guard demoOracle c3Sys ["t1", "t2", "t3", "t4", "t5"] (by decide) (by decide)

/-! ## C10: batched vector upsert counts -/

theorem expected_sum (ok : Nat → Bool) :
    ∀ (bs : List (List EmbeddingResult)) (k : Nat),
      expectedInserted ok bs k + expectedErrors ok bs k = (bs.map List.length).sum := by
  intro bs
  induction bs with
  | nil => intro k; rfl
  | cons b bs ih =>
    intro k
    rw [expectedInserted, expectedErrors, List.map_cons, List.sum_cons]
    have := ih (k + 1)
    by_cases hok : ok k
    · rw [if_pos hok, if_pos hok]; omega
    · rw [if_neg hok, if_neg hok]; omega

theorem chunksOfGo_props (n : Nat) (hn : 0 < n) :
    ∀ (fuel : Nat) (l : List EmbeddingResult), l.length ≤ fuel →
      ((chunksOfGo n fuel l).map List.length).sum = l.length
      ∧ ∀ b ∈ chunksOfGo n fuel l, 0 < b.length ∧ b.length ≤ n := by
  intro fuel
  induction fuel with
  | zero =>
    intro l h
    have hl : l = [] := List.eq_nil_of_length_eq_zero (by omega)
    subst hl
    exact ⟨rfl, fun b hb => by simp [chunksOfGo] at hb⟩
  | succ N ih =>
    intro l h
    rw [chunksOfGo]
    by_cases hl : l.length = 0 ∨ n = 0
    · rw [if_pos hl]
      have hl0 : l = [] := List.eq_nil_of_length_eq_zero (by omega)
      subst hl0
      exact ⟨rfl, fun b hb => by simp at hb⟩
    · rw [if_neg hl]
      have hdrop := ih (l.drop n) (by simp only [List.length_drop]; omega)
      refine ⟨?_, ?_⟩
      · rw [List.map_cons, List.sum_cons, hdrop.1]
        simp only [List.length_take, List.length_drop]
        omega
      · intro b hb
        rcases List.mem_cons.mp hb with he | hm
        · subst he
          simp only [List.length_take]
          omega
        · exact hdrop.2 b hm

theorem chunksOf_props (n : Nat) (hn : 0 < n) (l : List EmbeddingResult) :
    ((chunksOf n l).map List.length).sum = l.length
    ∧ ∀ b ∈ chunksOf n l, 0 < b.length ∧ b.length ≤ n :=
  chunksOfGo_props n hn l.length l (le_refl _)

theorem upsertVectorsGo_counts (ora : Oracle) :
    ∀ (batches : List (List EmbeddingResult)) (ins err : Nat) (s : Sys),
      (upsertVectorsGo ora batches ins err s).1.1
          = ins + expectedInserted ora.upsertOk batches s.upsertCalls
      ∧ (upsertVectorsGo ora batches ins err s).1.2
          = err + expectedErrors ora.upsertOk batches s.upsertCalls
      ∧ (upsertVectorsGo ora batches ins err s).2.upsertCalls
          = s.upsertCalls + batches.length := by
  intro batches
  induction batches with
  | nil =>
    intro ins err s
    simp [upsertVectorsGo, expectedInserted, expectedErrors]
  | cons b bs ih =>
    intro ins err s
    rw [upsertVectorsGo, expectedInserted, expectedErrors]
    by_cases hok : ora.upsertOk s.upsertCalls
    · rw [if_pos hok, if_pos hok, if_pos hok]
      have := ih (ins + b.length) err
        { s with upsertCalls := s.upsertCalls + 1,
                 vectors := applyUpsert s.vectors b }
      dsimp only at this ⊢
      rw [List.length_cons]
      omega
    · rw [if_neg hok, if_neg hok, if_neg hok]
      have := ih ins (err + b.length) { s with upsertCalls := s.upsertCalls + 1 }
      dsimp only at this ⊢
      rw [List.length_cons]
      omega

/-- C10: `upsertVectors` processes the input in batches of at most 100
records, every batch is non-empty and is attempted regardless of earlier
failures (the number of upsert calls equals the number of batches), a
batch contributes its full size to `inserted` when its upsert call
succeeds and to `errors` when it throws, and `inserted + errors` equals
the length of the input list. -/
theorem C10_upsert_counts (ora : Oracle) (s : Sys) (vectors : List EmbeddingResult) :
    (upsertVectors ora s vectors).1.1 + (upsertVectors ora s vectors).1.2
        = vectors.length
    ∧ (upsertVectors ora s vectors).1.1
        = expectedInserted ora.upsertOk (chunksOf BATCH_SIZE vectors) s.upsertCalls
    ∧ (upsertVectors ora s vectors).1.2
        = expectedErrors ora.upsertOk (chunksOf BATCH_SIZE vectors) s.upsertCalls
    ∧ (upsertVectors ora s vectors).2.upsertCalls
        = s.upsertCalls + (chunksOf BATCH_SIZE vectors).length
    ∧ ∀ batch ∈ chunksOf BATCH_SIZE vectors,
        0 < batch.length ∧ batch.length ≤ BATCH_SIZE := by
  have hgo := upsertVectorsGo_counts ora (chunksOf BATCH_SIZE vectors) 0 0 s
  have hch := chunksOf_props BATCH_SIZE (by rw [BATCH_SIZE]; omega) vectors
  have hsum := expected_sum ora.upsertOk (chunksOf BATCH_SIZE vectors) s.upsertCalls
  rw [upsertVectors]
  refine ⟨?_, ?_, ?_, ?_, hch.2⟩
  · rw [hgo.1, hgo.2.1]
    omega
  · rw [hgo.1]; omega
  · rw [hgo.2.1]; omega
  · exact hgo.2.2


/-! ## C2: embedding-batch failures and the reported error count -/

theorem generateEmbeddings_calls (ora : Oracle) (s : Sys) (texts : List String) :
    (generateEmbeddings ora s texts).2.genEmbCalls = s.genEmbCalls + 1 := by
  rw [generateEmbeddings]
  dsimp only
  by_cases h0 : texts.length = 0
  · rw [if_pos h0]
  · rw [if_neg h0]
    by_cases hq : DAILY_EMBEDDING_LIMIT < s.kvEmbedCount + texts.length
    · rw [if_pos hq]
    · rw [if_neg hq]
      by_cases hok : ora.aiOk s.aiCalls
      · rw [if_pos hok]
      · rw [if_neg hok]

/-- Every embedding batch is attempted, regardless of earlier failures:
the embedding loop invokes `generateEmbeddings` once per batch. -/
theorem embedStage_attempts (ora : Oracle) (pid : String) (frs : List FileRow) :
    ∀ (batches : List (List ChunkRow)) (s : Sys),
      (embedStage ora pid frs batches s).2.genEmbCalls
        = s.genEmbCalls + batches.length := by
  intro batches
  induction batches with
  | nil => intro s; simp [embedStage]
  | cons b bs ih =>
    intro s
    rw [embedStage]
    dsimp only
    have hcalls := generateEmbeddings_calls ora s (b.map (fun c => c.content))
    cases hr : (generateEmbeddings ora s (b.map (fun c => c.content))).1 with
    | ok embs =>
      dsimp only
      rw [ih, hcalls, List.length_cons]
      omega
    | error e =>
      dsimp only
      rw [ih, hcalls, List.length_cons]
      omega

def embedFailOracle : Oracle := { demoOracle with aiOk := fun _ => false }

def upsertFailOracle : Oracle := { demoOracle with upsertOk := fun _ => false }

def c2Req : IndexReq :=
  { project_path := "/p/demo"
    project_name := none
    force := false
    append := false
    files := [("a.ts", "let x = 1")] }

/-- C2, counterexample: indexing one file (one chunk, one embedding
batch) with an AI service that always throws: the single embedding batch
fails (`generateEmbeddings` was invoked once, the AI call was attempted
once, and no vector was produced), yet the reported error count is 0 and
the final project status is `ready` with response status `complete` —
the failure is not recorded and the status is not `error`, while the
chunk row remains persisted. -/
theorem C2_counterexample :
    (handleIndex embedFailOracle c2Req emptySys).1
        = IndexResp.completed "id0" "complete" 1 1 1 0 0
    ∧ (handleIndex embedFailOracle c2Req emptySys).2.db.projects.map
        (fun p => p.status) = ["ready"]
    ∧ (handleIndex embedFailOracle c2Req emptySys).2.genEmbCalls = 1
    ∧ (handleIndex embedFailOracle c2Req emptySys).2.aiCalls = 1
    ∧ (handleIndex embedFailOracle c2Req emptySys).2.vectors = []
    ∧ (handleIndex embedFailOracle c2Req emptySys).2.db.chunks.length = 1 := by
  refine ⟨?_, ?_, ?_, ?_, ?_, ?_⟩ <;> decide

/-- C2 (amended): a failed embedding batch is skipped silently: it is
not recorded in the reported error count and does not force the final
status to `error` — the error count and final status reflect only
vector-upsert failures.  Processing does continue with the remaining
batches (every batch is attempted), and chunks remain persisted even for
failed batches.  With all embedding batches failing and no upsert
failures the project ends `ready` with 0 reported errors; with a failing
upsert batch it ends `error`. -/
theorem C2_embed_failures_not_counted :
    (∀ (ora : Oracle) (pid : String) (frs : List FileRow)
        (batches : List (List ChunkRow)) (s : Sys),
        (embedStage ora pid frs batches s).2.genEmbCalls
          = s.genEmbCalls + batches.length)
    ∧ ((handleIndex embedFailOracle c2Req emptySys).1
          = IndexResp.completed "id0" "complete" 1 1 1 0 0
      ∧ (handleIndex embedFailOracle c2Req emptySys).2.db.projects.map
          (fun p => p.status) = ["ready"]
      ∧ (handleIndex embedFailOracle c2Req emptySys).2.db.chunks.length = 1)
    ∧ ((handleIndex upsertFailOracle c2Req emptySys).1
          = IndexResp.completed "id0" "error" 1 1 1 0 1
      ∧ (handleIndex upsertFailOracle c2Req emptySys).2.db.projects.map
          (fun p => p.status) = ["error"]) := by
  refine ⟨embedStage_attempts, ⟨?_, ?_, ?_⟩, ?_, ?_⟩ <;> decide


/-! ## C4: append-mode path-only dedup -/

def c4Req1 : IndexReq :=
  { project_path := "/p/demo"
    project_name := none
    force := false
    append := false
    files := [("a.ts", "let x = 1"), ("b.ts", "let y = 2")] }

def c4Req2 : IndexReq :=
  { project_path := "/p/demo"
    project_name := none
    force := false
    append := true
    files := [("b.ts", "changed content"), ("c.ts", "let z = 3")] }

def c4S1 : Sys := (handleIndex demoOracle c4Req1 emptySys).2

/-- C4: in append mode the incoming eligible files are filtered by
relative-path identity only against the paths already stored for the
project: a pair survives `selectFiles` iff it is an incoming file whose
path is indexable and not among the existing paths — its content plays
no role.  Concretely, indexing `[a.ts, b.ts]` and then appending
`[b.ts (changed content), c.ts]` processes exactly one file (`c.ts`):
`b.ts` is skipped and its stored content hash is still that of the old
content, while `c.ts` is added and the project file count becomes 3. -/
theorem C4_append_path_dedup :
    (∀ (files : List (String × String)) (E : List String) (f : String × String),
        f ∈ selectFiles files true E
          ↔ f ∈ files ∧ shouldIndexFile f.1 = true ∧ ¬ f.1 ∈ E)
    ∧ ((handleIndex demoOracle c4Req2 c4S1).1
          = IndexResp.completed "id0" "complete" 1 1 1 1 0
      ∧ (handleIndex demoOracle c4Req2 c4S1).2.db.files.map
          (fun f => (f.relative_path, f.content_hash))
          = [("a.ts", "h:let x = 1"), ("b.ts", "h:let y = 2"),
             ("c.ts", "h:let z = 3")]
      ∧ (handleIndex demoOracle c4Req2 c4S1).2.db.projects.map
          (fun p => p.file_count) = [3]) := by
  refine ⟨?_, by decide, by decide, by decide⟩
  intro files E f
  rw [selectFiles]
  by_cases hE : 0 < E.length
  · rw [if_pos ⟨rfl, hE⟩]
    simp [List.mem_filter, and_assoc]
    tauto
  · rw [if_neg (fun h => hE h.2)]
    have hnil : E = [] := List.eq_nil_of_length_eq_zero (by omega)
    subst hnil
    simp [List.mem_filter]

/-! ## C9: recently-indexed short-circuit -/

/-- C9: for an existing project with neither `force` nor `append` set
whose `last_indexed_at` is nonzero and within the past hour,
`handleIndex` returns the recently-indexed response and the system state
is returned exactly unchanged: no vectors are deleted, no file or chunk
rows change, no ids or embeddings are generated, and the project row is
untouched. -/
theorem C9_recently_indexed_no_work (ora : Oracle) (req : IndexReq) (s : Sys)
    (p : ProjectRow) (t : Nat)
    (hpath : ¬ req.project_path = "")
    (hfiles : ¬ req.files.length = 0)
    (happ : req.append = false)
    (hforce : req.force = false)
    (hfind : s.db.projects.find? (fun q => q.path = req.project_path) = some p)
    (hlast : p.last_indexed_at = some t)
    (ht : t ≠ 0)
    (hrecent : ora.nowMs / 1000 - t < 3600) :
    handleIndex ora req s = (.recentlyIndexed p.id t, s) := by
  have hrec : isRecent ora.nowMs p.last_indexed_at = true := by
    rw [hlast, isRecent]
    simp [ht, hrecent]
  rw [handleIndex, if_neg hpath, if_neg hfiles, hfind]
  dsimp only
  rw [happ]
  rw [if_neg (by simp)]
  rw [if_pos ⟨by rw [hforce]; rfl, hrec⟩]
  rw [hlast]
  rfl

def c9Proj : ProjectRow :=
  { id := "pid9", name := "demo", path := "/p/demo", status := "ready",
    file_count := 2, last_indexed_at := some 1699999000 }

def c9Sys : Sys := { emptySys with db := { emptySys.db with projects := [c9Proj] } }

def c9Req : IndexReq :=
  { project_path := "/p/demo"
    project_name := none
    force := false
    append := false
    files := [("a.ts", "let x = 1")] }

/-- C9, witness: a project last indexed 1000 seconds ago is reported as
recently indexed and the state comes back unchanged. -/
theorem C9_recently_indexed_no_work_witness :
    handleIndex demoOracle c9Req c9Sys
      = (.recentlyIndexed "pid9" 1699999000, c9Sys) :=
  C9_recently_indexed_no_work demoOracle c9Req c9Sys c9Proj 1699999000
    (by decide) (by decide) rfl rfl (by decide) rfl (by decide) (by decide)


end ClaudeHelper
